import Mathlib

/-!
A shallow embedding of the xelis-vm runtime core: the value model
(`ValuePointer`, `Path`, iterative drop), the bytecode constructors
(`new_array`, `new_struct`, `new_map`, `new_enum`), the `PathIterator`,
the module validator (`verify_value`, `verify_constants`, count checks),
and the environment (`NativeFunction::call_function`,
`Environment::set_cost_for_function_at_index`).

Rust machine integers are modelled as `Nat` with explicit bounds where
overflow matters; fallible Rust code returns `Except`/`Option`; a Rust
panic (`unwrap` on a failing value) is modelled as the `none` outcome of
an `Option`-returning embedding, distinct from a returned error.
-/

namespace Xelis

/-- The six unsigned integer width tags of the language (`Type::U8 ..
Type::U256` restricted to the numeric tags the embedded code inspects). -/
inductive ITy : Type where
  | u8 | u16 | u32 | u64 | u128 | u256
  deriving DecidableEq

/-- Maximum representable value of each width. -/
def ITy.maxOf : ITy → Nat
  | .u8 => 2 ^ 8 - 1
  | .u16 => 2 ^ 16 - 1
  | .u32 => 2 ^ 32 - 1
  | .u64 => 2 ^ 64 - 1
  | .u128 => 2 ^ 128 - 1
  | .u256 => 2 ^ 256 - 1

/-- Modelled from the spec: the primitive `Value` layer (`Null | U8 .. U256 |
Bool | String | Range(start, end, T)`) whose defining file is not under
`src/`; the integer variants are collapsed to one constructor carrying the
width tag. -/
inductive PrimVal : Type where
  | pnull : PrimVal
  | pbool (b : Bool) : PrimVal
  | pstr (s : String) : PrimVal
  | pint (ty : ITy) (n : Nat) : PrimVal
  | prange (start stop : PrimVal) (ty : ITy) : PrimVal
  deriving DecidableEq

/-- Errors of the value layer, mirroring the `ValueError` variants the
embedded operations surface. -/
inductive ValErr : Type where
  | weakValue : ValErr
  | outOfBounds (index len : Nat) : ValErr
  | subValue : ValErr
  | integerOverflow : ValErr
  | operationNotNumberType : ValErr
  | invalidPrimitiveType : ValErr
  | invalidValueType : ValErr
  deriving DecidableEq

/-- Modelled from the spec: `Value::is_number` (integers are numbers, other
primitives are not). -/
def PrimVal.isNumber : PrimVal → Bool
  | .pint _ _ => true
  | _ => false

/-- Modelled from the spec: `Value::increment`, checked `+1` ("all
arithmetic is checked"); overflow faults. -/
def PrimVal.increment : PrimVal → Except ValErr PrimVal
  | .pint ty n => if n + 1 > ty.maxOf then .error .integerOverflow else .ok (.pint ty (n + 1))
  | _ => .error .operationNotNumberType

/-- Modelled from the spec: `>=` on `Value`. Only the same-width integer
comparison is ever exercised here (a range's endpoints and its iteration
index share the range's declared width). -/
def PrimVal.pGe : PrimVal → PrimVal → Bool
  | .pint t m, .pint u n => decide (t = u) && decide (n ≤ m)
  | _, _ => false

/-- Modelled from the spec: `<` on `Value`; see `PrimVal.pGe`. -/
def PrimVal.pLt : PrimVal → PrimVal → Bool
  | .pint t m, .pint u n => decide (t = u) && decide (m < n)
  | _, _ => false

/-- Modelled from the spec: `Value::to_u32`. -/
def PrimVal.toU32 : PrimVal → Except ValErr Nat
  | .pint .u32 n => .ok n
  | _ => .error .invalidValueType

/-- The struct schema as the validator and constructors consume it: an
identity plus its declared field count (`StructType::fields().len()` is the
only field information the embedded code reads). -/
structure SType : Type where
  sid : Nat
  sfieldsCount : Nat
  deriving DecidableEq

/-- The enum schema: an identity plus the field count of each variant. -/
structure EType : Type where
  eid : Nat
  variants : List Nat
  deriving DecidableEq

/-- `EnumValueType`: an enum schema together with a chosen variant id. -/
structure EVType : Type where
  etype : EType
  variantId : Nat
  deriving DecidableEq

/-- The runtime value graph, merging `Value`/`ValueCell` (composite layer)
with `ValuePointer` (`owned`/`shared`): children of composite nodes are
pointers (`owned v` or `shared addr`); a `shared addr` refers to a cell of
an explicit heap (`Heap` below) standing for `Rc<RefCell<Value>>`. -/
inductive HVal : Type where
  | default (p : PrimVal) : HVal
  | map (pairs : List (HVal × HVal)) : HVal
  | array (elems : List HVal) : HVal
  | opt (inner : Option HVal) : HVal
  | strct (fields : List HVal) (t : SType) : HVal
  | enm (fields : List HVal) (t : EVType) : HVal
  | owned (v : HVal) : HVal
  | shared (addr : Nat) : HVal

mutual

/-- Node count of a value (termination measure and fuel bound). -/
def childSize : HVal → Nat
  | .default _ | .shared _ => 1
  | .owned v => 1 + childSize v
  | .opt none => 1
  | .opt (some v) => 1 + childSize v
  | .array es => 1 + sizeL es
  | .strct fs _ => 1 + sizeL fs
  | .enm fs _ => 1 + sizeL fs
  | .map ps => 1 + sizeLP ps

/-- Total node count of a list of values. -/
def sizeL : List HVal → Nat
  | [] => 0
  | v :: rest => childSize v + sizeL rest

/-- Total node count of a list of pairs of values. -/
def sizeLP : List (HVal × HVal) → Nat
  | [] => 0
  | (k, v) :: rest => childSize k + childSize v + sizeLP rest

end

mutual

/-- Structural boolean equality on `HVal` (the `Eq` used by the Rust
`HashMap` keys); proved equivalent to `=` below, which yields the
`DecidableEq HVal` instance. -/
def beqV : HVal → HVal → Bool
  | .default p, .default q => decide (p = q)
  | .map ps, .map qs => beqLP ps qs
  | .array es, .array fs => beqL es fs
  | .opt none, .opt none => true
  | .opt (some v), .opt (some w) => beqV v w
  | .strct fs i, .strct gs j => beqL fs gs && decide (i = j)
  | .enm fs i, .enm gs j => beqL fs gs && decide (i = j)
  | .owned v, .owned w => beqV v w
  | .shared a, .shared b => decide (a = b)
  | _, _ => false

/-- Elementwise `beqV` on lists. -/
def beqL : List HVal → List HVal → Bool
  | [], [] => true
  | v :: vs, w :: ws => beqV v w && beqL vs ws
  | _, _ => false

/-- Componentwise `beqV` on lists of pairs. -/
def beqLP : List (HVal × HVal) → List (HVal × HVal) → Bool
  | [], [] => true
  | (k, v) :: ps, (l, w) :: qs => beqV k l && beqV v w && beqLP ps qs
  | _, _ => false

end

/-! ## VM stack and the constructor opcodes (src/vm/src/instructions/constructor.rs)

The operand stack is a list of value pointers, head = top of stack.  In
this section the `ValuePointer` indirection of stack cells is transparent:
`into_value` unwraps an `owned` pointer and is the identity otherwise, so
theorems about `new_map` hypothesise that popped keys are not `shared`
handles (aliasing is modelled in the drop/path sections). -/

/-- Errors of the VM instructions exercised here. -/
inductive VMErr : Type where
  | emptyStack : VMErr
  | invalidKeyType : VMErr
  | unknownId : VMErr
  | invalidEnumVariant : VMErr
  deriving DecidableEq

/-- `Stack::pop_stack`. -/
def popStack : List HVal → Except VMErr (HVal × List HVal)
  | [] => .error .emptyStack
  | v :: rest => .ok (v, rest)

/-- `ValuePointer::into_value`: unwrap an owned pointer (a `shared` handle
would be dereferenced through the heap; see the section note). -/
def intoValueHV : HVal → HVal
  | .owned v => v
  | v => v

/-- `ValueCell::is_map`. -/
def isMapHV : HVal → Bool
  | .map _ => true
  | _ => false

/-- The pop/`push_front` loop shared by `new_array`, `new_struct` and
`new_enum`: pop `n` cells, prepending each to a double-ended buffer. -/
def popFrontLoop : Nat → List HVal → List HVal → Except VMErr (List HVal × List HVal)
  | 0, stack, acc => .ok (acc, stack)
  | n + 1, stack, acc =>
      match popStack stack with
      | .error e => .error e
      | .ok (p, rest) => popFrontLoop n rest (p :: acc)

/-- `new_array` (the `u8` length operand is already decoded to `n`). -/
def newArrayOp (n : Nat) (stack : List HVal) : Except VMErr (List HVal) :=
  match popFrontLoop n stack [] with
  | .error e => .error e
  | .ok (vs, rest) => .ok (.array vs :: rest)

/-- `new_struct`: resolve the struct schema by id through the backend
(modelled as the list of known schemas), pop `fields_count` cells. -/
def newStructOp (structs : List SType) (id : Nat) (stack : List HVal) :
    Except VMErr (List HVal) :=
  match structs.get? id with
  | none => .error .unknownId
  | some t =>
      match popFrontLoop t.sfieldsCount stack [] with
      | .error e => .error e
      | .ok (vs, rest) => .ok (.strct vs t :: rest)

/-- `new_enum`: resolve the enum schema and variant, pop one cell per
variant field. -/
def newEnumOp (enums : List EType) (id variantId : Nat) (stack : List HVal) :
    Except VMErr (List HVal) :=
  match enums.get? id with
  | none => .error .unknownId
  | some e =>
      match e.variants.get? variantId with
      | none => .error .invalidEnumVariant
      | some fc =>
          match popFrontLoop fc stack [] with
          | .error err => .error err
          | .ok (vs, rest) => .ok (.enm vs ⟨e, variantId⟩ :: rest)

/-- `HashMap::insert`: replace the value of an existing equal key (the old
key is kept), else add the binding. -/
def aInsert : List (HVal × HVal) → HVal → HVal → List (HVal × HVal)
  | [], k, v => [(k, v)]
  | (k', v') :: rest, k, v =>
      if beqV k' k then (k', v) :: rest else (k', v') :: aInsert rest k v

/-- `HashMap` lookup over the association-list model. -/
def aLookup : List (HVal × HVal) → HVal → Option HVal
  | [], _ => none
  | (k', v') :: rest, k => if beqV k' k then some v' else aLookup rest k

/-- The `new_map` pair loop: pop `value` then `key`, reject a map key,
insert last-popped-wins into the hash map. -/
def newMapLoop : Nat → List HVal → List (HVal × HVal) →
    Except VMErr (List (HVal × HVal) × List HVal)
  | 0, stack, m => .ok (m, stack)
  | n + 1, stack, m =>
      match popStack stack with
      | .error e => .error e
      | .ok (value, rest) =>
          match popStack rest with
          | .error e => .error e
          | .ok (key0, rest) =>
              let key := intoValueHV key0
              if isMapHV key then .error .invalidKeyType
              else newMapLoop n rest (aInsert m key value)

/-- `new_map` (the `u8` length operand already decoded to `n`). -/
def newMapOp (n : Nat) (stack : List HVal) : Except VMErr (List HVal) :=
  match newMapLoop n stack [] with
  | .error e => .error e
  | .ok (m, rest) => .ok (.map m :: rest)

/-- Whether a cell is a `shared` handle (excluded from `new_map` key
theorems; see the section note). -/
def isSharedHV : HVal → Bool
  | .shared _ => true
  | _ => false

/-- The operand-stack image of `n` key/value pairs emitted left-to-right by
the compiler: each pair pushes its key then its value, so with head = top
the stack reads the reversed pairs, value before key. -/
def encodePairs (pairs : List (HVal × HVal)) : List HVal :=
  pairs.reverse.flatMap (fun p => [p.2, p.1])

/-- The value of the first pair (in list order) whose key equals `k`. -/
def firstKeyVal : List (HVal × HVal) → HVal → Option HVal
  | [], _ => none
  | (k', v) :: rest, k => if beqV k' k then some v else firstKeyVal rest k

/-- The hash map `new_map` builds from source-ordered pairs: the popped
(reversed) pairs inserted in sequence. -/
def buildMap (pairs : List (HVal × HVal)) : List (HVal × HVal) :=
  (pairs.reverse.map (fun p => (intoValueHV p.1, p.2))).foldl
    (fun m p => aInsert m p.1 p.2) []

/-! ## PathIterator (src/vm/src/iterator.rs) -/

/-- `PathIterator`: the iterated cell plus the current index value. -/
structure IterState : Type where
  cell : HVal
  index : PrimVal

/-- `PathIterator::new`: a `Range` cell seeds the index with the zero of the
range's declared width; every other cell gets `U32(0)`.  (The source's
`_ => Err(InvalidPrimitiveType)` arm guards non-numeric `Type` tags, which
`ITy` does not contain.) -/
def pathIterNew (inner : HVal) : IterState :=
  match inner with
  | .default (.prange _ _ ty) => { cell := inner, index := .pint ty 0 }
  | _ => { cell := inner, index := .pint .u32 0 }

/-- `PathIterator::next`: remember the index, increment the stored one
(propagating its error), then yield by shape — an array element at the old
index, or the old index itself while it lies inside the range.  The yielded
array element is returned as stored; the source wraps it through
`transform()` into a shared handle, which does not affect which element is
yielded. -/
def pathIterNext (st : IterState) : Except ValErr (Option HVal × IterState) :=
  let index := st.index
  match index.increment with
  | .error e => .error e
  | .ok idx' =>
      let st' : IterState := { st with index := idx' }
      match st.cell with
      | .array es =>
          match index.toU32 with
          | .error e => .error e
          | .ok i => .ok (es.get? i, st')
      | .default (.prange start stop _) =>
          if index.pGe start && index.pLt stop then
            .ok (some (.default index), st')
          else
            .ok (none, st')
      | _ => .ok (none, st')

/-- The elements produced by repeated `next` calls, stopping at the first
`None` or error; `fuel` bounds the number of calls. -/
def iterCollect : Nat → IterState → List HVal
  | 0, _ => []
  | fuel + 1, st =>
      match pathIterNext st with
      | .error _ => []
      | .ok (none, _) => []
      | .ok (some v, st') => v :: iterCollect fuel st'

/-! ## Module validator (src/vm/src/validator.rs)

Constants are `ValueType` trees.  `HashMap` iteration order in
`verify_value` is arbitrary in the source; the model fixes the list order
(acceptance is order-independent). -/

/-- Validator errors (`ValidatorError`). -/
inductive VdErr : Type where
  | tooMuchMemoryUsage : VdErr
  | tooManyConstants : VdErr
  | tooManyChunks : VdErr
  | tooManyTypes : VdErr
  | tooManyStructs : VdErr
  | tooManyEnums : VdErr
  | incorrectFields : VdErr
  | incorrectVariant : VdErr
  | invalidRange : VdErr
  | invalidRangeType : VdErr
  deriving DecidableEq

/-- `ValueType`: the constant-value trees stored in a module. -/
inductive VType : Type where
  | vdefault (p : PrimVal) : VType
  | vstruct (fields : List VType) (t : SType) : VType
  | varray (elements : List VType) : VType
  | voptional (inner : Option VType) : VType
  | vmap (pairs : List (VType × VType)) : VType
  | venum (fields : List VType) (t : EVType) : VType

mutual

/-- Node count of a constant (fuel bound for the `verify_value` loop). -/
def nodesV : VType → Nat
  | .vdefault _ => 1
  | .voptional none => 1
  | .voptional (some v) => 1 + nodesV v
  | .varray es => 1 + nodesVL es
  | .vstruct fs _ => 1 + nodesVL fs
  | .venum fs _ => 1 + nodesVL fs
  | .vmap ps => 1 + nodesVLP ps

/-- Total node count of a list of constants. -/
def nodesVL : List VType → Nat
  | [] => 0
  | v :: rest => nodesV v + nodesVL rest

/-- Total node count of a list of pairs of constants. -/
def nodesVLP : List (VType × VType) → Nat
  | [] => 0
  | (k, v) :: rest => nodesV k + nodesV v + nodesVLP rest

end

/-- Per-width memory weight of an integer constant in `verify_value`. -/
def ITy.memWeight : ITy → Nat
  | .u8 => 1
  | .u16 => 2
  | .u32 => 4
  | .u64 => 8
  | .u128 => 16
  | .u256 => 32

/-- `ModuleValidator::verify_value`'s work-stack loop.  Entries carry
`(node, depth)`; `mem` is the running memory usage.  Each iteration pops one
entry, so `fuel` bounds the iteration count (`none` = fuel exhausted, which
the fuel-sufficiency lemma rules out for the fuel `verifyValueO` passes).
The constant bounds are `constant_max_depth = 16` and
`constant_max_memory = 1024`. -/
def verifyValueLoop (mstructs estructs : List SType) (menums eenums : List EType) :
    Nat → List (VType × Nat) → Nat → Option (Except VdErr Nat)
  | 0, _, _ => none
  | _ + 1, [], mem => some (.ok mem)
  | fuel + 1, (v, depth) :: rest, mem =>
      if depth > 16 then some (.error .tooManyConstants)
      else
        let mem := mem + 1
        if mem > 1024 then some (.error .tooMuchMemoryUsage)
        else
          match v with
          | .vstruct fields t =>
              if fields.length ≠ t.sfieldsCount then some (.error .incorrectFields)
              else if ¬ (mstructs.contains t ∨ estructs.contains t) then
                some (.error .tooManyStructs)
              else
                verifyValueLoop mstructs estructs menums eenums fuel
                  ((fields.map (·, depth + 1)).reverse ++ rest) (mem + 8)
          | .venum fields t =>
              match t.etype.variants.get? t.variantId with
              | none => some (.error .incorrectVariant)
              | some fc =>
                  if fields.length ≠ fc then some (.error .incorrectFields)
                  else if ¬ (menums.contains t.etype ∨ eenums.contains t.etype) then
                    some (.error .tooManyEnums)
                  else
                    verifyValueLoop mstructs estructs menums eenums fuel
                      ((fields.map (·, depth + 1)).reverse ++ rest) (mem + 10)
          | .varray elements =>
              if elements.length > ITy.maxOf .u32 then some (.error .tooManyConstants)
              else
                verifyValueLoop mstructs estructs menums eenums fuel
                  ((elements.map (·, depth + 1)).reverse ++ rest) (mem + 4)
          | .vmap pairs =>
              if pairs.length > ITy.maxOf .u32 then some (.error .tooManyConstants)
              else
                verifyValueLoop mstructs estructs menums eenums fuel
                  ((pairs.flatMap (fun p => [(p.1, depth + 1), (p.2, depth + 1)])).reverse
                    ++ rest) (mem + 16)
          | .voptional none =>
              verifyValueLoop mstructs estructs menums eenums fuel rest mem
          | .voptional (some value) =>
              verifyValueLoop mstructs estructs menums eenums fuel
                ((value, depth + 1) :: rest) (mem + 1)
          | .vdefault p =>
              match p with
              | .prange l r ty =>
                  match l, r with
                  | .pint lt _, .pint rt _ =>
                      if lt ≠ rt then some (.error .invalidRange)
                      else if lt ≠ ty then some (.error .invalidRangeType)
                      else verifyValueLoop mstructs estructs menums eenums fuel rest (mem + 4)
                  | _, _ => some (.error .invalidRange)
              | .pnull =>
                  verifyValueLoop mstructs estructs menums eenums fuel rest (mem + 1)
              | .pbool _ =>
                  verifyValueLoop mstructs estructs menums eenums fuel rest (mem + 1)
              | .pstr s =>
                  verifyValueLoop mstructs estructs menums eenums fuel rest (mem + s.length)
              | .pint ity _ =>
                  verifyValueLoop mstructs estructs menums eenums fuel rest (mem + ity.memWeight)

/-- `verify_value` on one constant, with exactly enough fuel (one iteration
per node plus the final empty-stack step). -/
def verifyValueO (mstructs estructs : List SType) (menums eenums : List EType)
    (c : VType) : Option (Except VdErr Nat) :=
  verifyValueLoop mstructs estructs menums eenums (nodesV c + 1) [(c, 0)] 0

/-- `ModuleValidator::verify_constants`: sum the per-constant memory usages,
rejecting (with `TooManyConstants`) once the running total exceeds 1024. -/
def verifyConstantsLoop (mstructs estructs : List SType) (menums eenums : List EType) :
    List VType → Nat → Option (Except VdErr Unit)
  | [], _ => some (.ok ())
  | c :: cs, mem =>
      match verifyValueO mstructs estructs menums eenums c with
      | none => none
      | some (.error e) => some (.error e)
      | some (.ok m) =>
          let mem := mem + m
          if mem > 1024 then some (.error .tooManyConstants)
          else verifyConstantsLoop mstructs estructs menums eenums cs mem

/-- `verify_constants` from an empty running total. -/
def verifyConstants (mstructs estructs : List SType) (menums eenums : List EType)
    (cs : List VType) : Option (Except VdErr Unit) :=
  verifyConstantsLoop mstructs estructs menums eenums cs 0

mutual

/-- The memory weight `verify_value` actually accumulates for a constant:
one byte for every node's type tag plus the per-variant payload. -/
def codeWeight : VType → Nat
  | .vdefault p => 1 +
      (match p with
       | .pnull => 1
       | .pbool _ => 1
       | .pstr s => s.length
       | .pint ity _ => ity.memWeight
       | .prange _ _ _ => 4)
  | .varray es => 1 + 4 + codeWeightL es
  | .vstruct fs _ => 1 + 8 + codeWeightL fs
  | .vmap ps => 1 + 16 + codeWeightLP ps
  | .venum fs _ => 1 + 10 + codeWeightL fs
  | .voptional none => 1
  | .voptional (some v) => 1 + 1 + codeWeight v

/-- Summed `codeWeight` of a list of constants. -/
def codeWeightL : List VType → Nat
  | [] => 0
  | v :: rest => codeWeight v + codeWeightL rest

/-- Summed `codeWeight` of a list of pairs of constants. -/
def codeWeightLP : List (VType × VType) → Nat
  | [] => 0
  | (k, v) :: rest => codeWeight k + codeWeight v + codeWeightLP rest

end

mutual

/-- Nesting depth of a constant: the largest depth of any node, the root
sitting at depth 0 (children of a node at depth `d` sit at `d + 1`). -/
def depthV : VType → Nat
  | .vdefault _ => 0
  | .voptional none => 0
  | .voptional (some v) => 1 + depthV v
  | .varray es => match es with | [] => 0 | _ => 1 + depthVL es
  | .vstruct fs _ => match fs with | [] => 0 | _ => 1 + depthVL fs
  | .venum fs _ => match fs with | [] => 0 | _ => 1 + depthVL fs
  | .vmap ps => match ps with | [] => 0 | _ => 1 + depthVLP ps

/-- Maximum `depthV` over a list of constants. -/
def depthVL : List VType → Nat
  | [] => 0
  | v :: rest => max (depthV v) (depthVL rest)

/-- Maximum `depthV` over a list of pairs of constants. -/
def depthVLP : List (VType × VType) → Nat
  | [] => 0
  | (k, v) :: rest => max (max (depthV k) (depthV v)) (depthVLP rest)

end

mutual

/-- Constants built only from non-range primitives, arrays, maps and
optionals (no schema or range checks apply), with every array and map
shorter than the `u32::MAX` length bound. -/
def simpleV : VType → Bool
  | .vdefault (.prange _ _ _) => false
  | .vdefault _ => true
  | .vstruct _ _ => false
  | .venum _ _ => false
  | .voptional none => true
  | .voptional (some v) => simpleV v
  | .varray es => decide (es.length ≤ ITy.maxOf .u32) && simpleVL es
  | .vmap ps => decide (ps.length ≤ ITy.maxOf .u32) && simpleVLP ps

/-- `simpleV` over a list of constants. -/
def simpleVL : List VType → Bool
  | [] => true
  | v :: rest => simpleV v && simpleVL rest

/-- `simpleV` over a list of pairs of constants. -/
def simpleVLP : List (VType × VType) → Bool
  | [] => true
  | (k, v) :: rest => simpleV k && simpleV v && simpleVLP rest

end

mutual

/-- The claim's memory weight, written from the claim's own words:
`Null/Bool/U8` = 1, `U16` = 2, `U32/Array/Range` = 4, `U64/Struct` = 8,
`Map` = 16, `Enum` = 10, `Optional(Some)` = +1 plus the child, `String` =
byte length, `U128` = 16, `U256` = 32 (no per-node tag byte).  Kept solely
to compare the claim against `codeWeight`. -/
def claimWeight : VType → Nat
  | .vdefault .pnull => 1
  | .vdefault (.pbool _) => 1
  | .vdefault (.pstr s) => s.length
  | .vdefault (.pint ity _) => ity.memWeight
  | .vdefault (.prange _ _ _) => 4
  | .varray es => 4 + claimWeightLAux es
  | .vstruct fs _ => 8 + claimWeightLAux fs
  | .vmap ps => 16 + claimWeightLPAux ps
  | .venum fs _ => 10 + claimWeightLAux fs
  | .voptional none => 0
  | .voptional (some v) => 1 + claimWeight v

/-- Summed `claimWeight` of a list of constants. -/
def claimWeightLAux : List VType → Nat
  | [] => 0
  | v :: rest => claimWeight v + claimWeightLAux rest

/-- Summed `claimWeight` of a list of pairs of constants. -/
def claimWeightLPAux : List (VType × VType) → Nat
  | [] => 0
  | (k, v) :: rest => claimWeight k + claimWeight v + claimWeightLPAux rest

end

/-! ## Validator count checks (`ModuleValidator::verify`, lines 255-279) -/

/-- The module as the count checks see it. -/
structure ModuleM : Type where
  constants : List VType
  chunks : List (List Nat)
  structs : List SType
  enums : List EType

/-- The count checks at the head of `ModuleValidator::verify`: each of the
four counts must be strictly below `u16::MAX = 65535`, and so must the
combined struct + enum count. -/
def verifyCounts (m : ModuleM) : Except VdErr Unit :=
  if m.constants.length ≥ 65535 then .error .tooManyConstants
  else if m.chunks.length ≥ 65535 then .error .tooManyChunks
  else if m.structs.length ≥ 65535 then .error .tooManyStructs
  else if m.enums.length ≥ 65535 then .error .tooManyEnums
  else if m.structs.length + m.enums.length ≥ 65535 then .error .tooManyTypes
  else .ok ()

/-! ## Shared cells and the iterative drop (src/types/src/values/pointer/mod.rs)

A `shared addr` handle stands for `Rc<RefCell<Value>>`; the heap maps each
live cell's address to its content.  `Rc::try_unwrap` succeeds exactly when
the consumed handle is the last one, so `into_inner` counts the remaining
`shared addr` occurrences in the heap and in every other live value (`world`
below).  Box addresses of `owned` pointers are ephemeral and cannot equal a
live cell's address, so they are not tracked. -/

/-- The live shared cells: address to content. -/
abbrev Heap : Type := List (Nat × HVal)

/-- Content of the cell at `a`, if live. -/
def heapLookup : Heap → Nat → Option HVal
  | [], _ => none
  | (b, v) :: rest, a => if b = a then some v else heapLookup rest a

/-- Free the cell at `a`. -/
def heapRemove : Heap → Nat → Heap
  | [], _ => []
  | (b, v) :: rest, a => if b = a then heapRemove rest a else (b, v) :: heapRemove rest a

/-- Replace the content of the cell at `a`. -/
def heapUpdate : Heap → Nat → HVal → Heap
  | [], _, _ => []
  | (b, v) :: rest, a, w => if b = a then (b, w) :: heapUpdate rest a w else (b, v) :: heapUpdate rest a w

mutual

/-- Occurrences of the handle `shared a` inside a value. -/
def countRefsV : HVal → Nat → Nat
  | .default _, _ => 0
  | .shared b, a => if b = a then 1 else 0
  | .owned v, a => countRefsV v a
  | .opt none, _ => 0
  | .opt (some v), a => countRefsV v a
  | .array es, a => countRefsL es a
  | .strct fs _, a => countRefsL fs a
  | .enm fs _, a => countRefsL fs a
  | .map ps, a => countRefsLP ps a

/-- Summed `countRefsV` over a list of values. -/
def countRefsL : List HVal → Nat → Nat
  | [], _ => 0
  | v :: rest, a => countRefsV v a + countRefsL rest a

/-- Summed `countRefsV` over a list of pairs of values. -/
def countRefsLP : List (HVal × HVal) → Nat → Nat
  | [], _ => 0
  | (k, v) :: rest, a => countRefsV k a + countRefsV v a + countRefsLP rest a

end

/-- Occurrences of the handle `shared a` inside every live heap cell
(`Rc` strong handles held from within the value graph itself). -/
def countRefsHeap : Heap → Nat → Nat
  | [], _ => 0
  | (_, v) :: rest, a => countRefsV v a + countRefsHeap rest a

/-- `ValuePointerInner::into_inner` on a consumed pointer: move an owned
box out; for `shared a`, `Rc::try_unwrap` moves the content out and frees
the cell when no other handle (heap-internal or in `world`, the other live
values) remains, and otherwise clones the content (`rc.borrow().clone()`). -/
def intoInnerD (heap : Heap) (world : List HVal) (p : HVal) : HVal × Heap :=
  match p with
  | .owned v => (v, heap)
  | .shared a =>
      let content := (heapLookup heap a).getD (.default .pnull)
      if 1 ≤ countRefsHeap heap a + countRefsL world a then (content, heap)
      else (content, heapRemove heap a)
  | v => (v, heap)

/-- The state of the `Drop for ValuePointer` loop: the live cells, the work
stack (head = top) and the set of seen cell addresses. -/
structure DropState : Type where
  heap : Heap
  stack : List HVal
  visited : List Nat

/-- `stack.extend(array.into_iter().map(|mut v| v.into_inner()))`: take each
child in order and push its content; the not-yet-consumed siblings still
hold their handles and so count toward `Rc::try_unwrap`. -/
def dropExtend (heap : Heap) (stack : List HVal) : List HVal → Heap × List HVal
  | [] => (heap, stack)
  | p :: rest =>
      let (val, h') := intoInnerD heap (stack ++ rest) p
      dropExtend h' (val :: stack) rest

/-- The `Value::Map` arm: push each key, then push the value's content iff
`visited.insert(v.get_value_ptr())` is new.  An `owned` value's box address
is always new (and never seen again), so it is pushed without being
tracked. -/
def dropMapPairs (heap : Heap) (stack : List HVal) (visited : List Nat) :
    List (HVal × HVal) → DropState
  | [] => { heap := heap, stack := stack, visited := visited }
  | (k, pv) :: rest =>
      let stack := k :: stack
      let world := rest.flatMap (fun q => [q.1, q.2])
      match pv with
      | .shared a =>
          if a ∈ visited then dropMapPairs heap stack visited rest
          else
            let (val, h') := intoInnerD heap (stack ++ world) (.shared a)
            dropMapPairs h' (val :: stack) (a :: visited) rest
      | p =>
          let (val, h') := intoInnerD heap (stack ++ world) p
          dropMapPairs h' (val :: stack) visited rest

/-- One iteration of the drop loop's `match value`. -/
def dropArm (heap : Heap) (stackRest : List HVal) (visited : List Nat) :
    HVal → DropState
  | .map pairs => dropMapPairs heap stackRest visited pairs
  | .array es =>
      let (h', s') := dropExtend heap stackRest es
      { heap := h', stack := s', visited := visited }
  | .strct fs _ =>
      let (h', s') := dropExtend heap stackRest fs
      { heap := h', stack := s', visited := visited }
  | .enm fs _ =>
      let (h', s') := dropExtend heap stackRest fs
      { heap := h', stack := s', visited := visited }
  | .opt (some p) =>
      let (val, h') := intoInnerD heap stackRest p
      { heap := h', stack := val :: stackRest, visited := visited }
  | _ => { heap := heap, stack := stackRest, visited := visited }

/-- Run the `while let Some(value) = stack.pop()` loop for at most `fuel`
iterations: `some st` when the stack drained (the drop finished), `none`
when the fuel ran out first. -/
def dropRun : Nat → DropState → Option DropState
  | 0, _ => none
  | fuel + 1, st =>
      match st.stack with
      | [] => some st
      | v :: rest => dropRun fuel (dropArm st.heap rest st.visited v)

/-- `Drop for ValuePointer`: take the root value out (the dropped pointer's
own handle is consumed; only heap-internal handles remain) and drain the
work stack. -/
def dropPointer (heap : Heap) (p : HVal) (fuel : Nat) : Option DropState :=
  let (v0, h0) := intoInnerD heap [] p
  dropRun fuel { heap := h0, stack := [v0], visited := [] }

/-- A self-cycle built through a shared handle: cell 0 is an array whose
single element points back to cell 0. -/
def cycHeap : Heap := [(0, .array [.shared 0])]

/-! ## Path (src/types/src/path/mod.rs) -/

/-- `Path`: owned value, borrowed constant, or weak wrapper into a shared
cell (`Wrapper(WeakValue)`, holding the cell's address). -/
inductive PathM : Type where
  | powned (v : HVal) : PathM
  | pborrowed (v : HVal) : PathM
  | pwrapper (addr : Nat) : PathM

/-- The `path_as_ref!` read-borrow: direct view for `Owned`/`Borrowed`;
a `Wrapper` upgrades its weak handle or fails with `WeakValue`. -/
def pathAsRef (heap : Heap) : PathM → Except ValErr HVal
  | .powned v => .ok v
  | .pborrowed v => .ok v
  | .pwrapper a =>
      match heapLookup heap a with
      | none => .error .weakValue
      | some v => .ok v

/-- The `path_as_mut!` write-borrow, applying the in-scope mutation `f`:
`Borrowed` is promoted to `Owned` on a clone; a `Wrapper` upgrades or fails
with `WeakValue`. -/
def pathAsMut (heap : Heap) (p : PathM) (f : HVal → HVal) : Except ValErr (PathM × Heap) :=
  match p with
  | .powned v => .ok (.powned (f v), heap)
  | .pborrowed v => .ok (.powned (f v), heap)
  | .pwrapper a =>
      match heapLookup heap a with
      | none => .error .weakValue
      | some v => .ok (.pwrapper a, heapUpdate heap a (f v))

/-- `Path::assign`: replace the referenced value in place (`Owned`/
`Wrapper`); a `Borrowed` path is replaced by `Owned(value)`. -/
def pAssign (heap : Heap) (p : PathM) (val : HVal) : Except ValErr (PathM × Heap) :=
  match p with
  | .powned _ => .ok (.powned val, heap)
  | .pborrowed _ => .ok (.powned val, heap)
  | .pwrapper a =>
      match heapLookup heap a with
      | none => .error .weakValue
      | some _ => .ok (.pwrapper a, heapUpdate heap a val)

/-- `Value::to_sub_vec`/`as_sub_vec`/`as_mut_sub_vec`: the child pointers of
an array or struct; anything else is a `SubValue` error. -/
def toSubVec : HVal → Except ValErr (List HVal)
  | .array es => .ok es
  | .strct fs _ => .ok fs
  | _ => .error .subValue

/-- Rebuild an array or struct around replaced children (the in-place
mutation of `as_mut_sub_vec`). -/
def setSubVec : HVal → List HVal → HVal
  | .array _, vs => .array vs
  | .strct _ t, vs => .strct vs t
  | v, _ => v

/-- An address not used by any live cell. -/
def freshAddr (heap : Heap) : Nat :=
  (heap.map Prod.fst).foldr max 0 + 1

/-- `ValuePointer::weak` on a child pointer: a shared child is downgraded
in place; an owned child is moved into a newly materialised shared cell.
In the `Owned`-parent arm of the source the materialised cell's only strong
handle (`at_index`) is dropped on return — cell lifetime is tracked by the
drop model, not by this heap, and no claim below depends on it. -/
def weakOfChild (heap : Heap) (child : HVal) : Nat × Heap :=
  match child with
  | .shared a => (a, heap)
  | .owned w => let a := freshAddr heap; (a, (a, w) :: heap)
  | w => let a := freshAddr heap; (a, (a, w) :: heap)

/-- `Path::get_sub_variable`: index into the sub-values of an array or
struct, yielding a `Wrapper` path onto the child. -/
def pGetSubVariable (heap : Heap) (p : PathM) (i : Nat) : Except ValErr (PathM × Heap) :=
  match p with
  | .powned v =>
      match toSubVec v with
      | .error e => .error e
      | .ok values =>
          let len := values.length
          if i ≥ len then .error (.outOfBounds i len)
          else
            let child := values.getD i (.default .pnull)
            let (a, h') := weakOfChild heap child
            .ok (.pwrapper a, h')
  | .pborrowed v =>
      match toSubVec v with
      | .error e => .error e
      | .ok values =>
          let len := values.length
          match values.get? i with
          | none => .error (.outOfBounds i len)
          | some child =>
              let (a, h') := weakOfChild heap child
              .ok (.pwrapper a, h')
  | .pwrapper a =>
      match heapLookup heap a with
      | none => .error .weakValue
      | some content =>
          match toSubVec content with
          | .error e => .error e
          | .ok values =>
              let len := values.length
              match values.get? i with
              | none => .error (.outOfBounds i len)
              | some child =>
                  match child with
                  | .shared b => .ok (.pwrapper b, heap)
                  | c =>
                      let b := freshAddr heap
                      let content' := setSubVec content (values.set i (.shared b))
                      let h' := (b, intoValueHV c) :: heapUpdate heap a content'
                      .ok (.pwrapper b, h')

/-- `Path::into_owned`: `Wrapper` does `upgrade().unwrap()` — a dead weak
panics (`none`) instead of signalling an error. -/
def pIntoOwned (heap : Heap) : PathM → Option HVal
  | .powned v => some v
  | .pborrowed v => some v
  | .pwrapper a =>
      match heapLookup heap a with
      | none => none
      | some v => some v

/-- `Path::into_pointer`: as `into_owned`, but keeping the pointer shape;
a dead weak panics (`none`). -/
def pIntoPointer (heap : Heap) : PathM → Option HVal
  | .powned v => some (.owned v)
  | .pborrowed v => some (.owned v)
  | .pwrapper a =>
      match heapLookup heap a with
      | none => none
      | some _ => some (.shared a)

/-! ## Native functions (src/src/environment/function.rs) and the
environment (src/environment/src/lib.rs) -/

/-- `EnvironmentError` variants the embedded code surfaces. -/
inductive EnvErr : Type where
  | invalidFnCall : EnvErr
  | fnExpectedInstance : EnvErr
  | outOfGas : EnvErr
  deriving DecidableEq

/-- Modelled from the spec: the gas side of `State`/`Context` (its file is
not under `src/`) — gas used so far plus an optional limit. -/
structure GasState : Type where
  gasUsage : Nat
  gasLimit : Option Nat
  deriving DecidableEq

/-- Modelled from the spec: `increase_gas_usage` — "any charge that would
exceed the limit aborts with `OutOfGas`". -/
def increaseGasUsage (st : GasState) (cost : Nat) : Except EnvErr GasState :=
  match st.gasLimit with
  | some limit =>
      if st.gasUsage + cost > limit then .error .outOfGas
      else .ok { st with gasUsage := st.gasUsage + cost }
  | none => .ok { st with gasUsage := st.gasUsage + cost }

/-- `NativeFunction`'s data fields.  Parameter and receiver types are
opaque tags; `implId` stands for the `on_call` function pointer so that
"unchanged" is expressible (the callable itself is passed separately to
`callFunction`). -/
structure NativeFunctionM : Type where
  forType : Option Nat
  parameters : List Nat
  cost : Nat
  returnType : Option Nat
  implId : Nat
  deriving DecidableEq

/-- `NativeFunction::call_function`: reject an arity or receiver-presence
mismatch with `InvalidFnCall` before anything else; then charge gas —
`state.increase_gas_usage(self.cost).unwrap()` panics (`none`) when the
charge fails — and invoke `on_call` with the receiver (or the
`FnExpectedInstance` error) and the parameters. -/
def callFunction (f : NativeFunctionM)
    (onCall : Except EnvErr HVal → List PathM → Except EnvErr (Option HVal))
    (instanceValue : Option HVal) (params : List PathM) (st : GasState) :
    Option (Except EnvErr (Option HVal) × GasState) :=
  if params.length ≠ f.parameters.length ∨ instanceValue.isSome ≠ f.forType.isSome then
    some (.error .invalidFnCall, st)
  else
    match increaseGasUsage st f.cost with
    | .error _ => none
    | .ok st' =>
        let inst : Except EnvErr HVal :=
          match instanceValue with
          | some v => .ok v
          | none => .error .fnExpectedInstance
        some (onCall inst params, st')

/-- `Environment`: registered native functions, structures and enums. -/
structure EnvM : Type where
  functions : List NativeFunctionM
  structures : List SType
  enums : List EType
  deriving DecidableEq

/-- Modelled from the spec: `NativeFunction::set_cost` (its file is not
under `src/`; "costs are mutable post-registration"). -/
def setCost (f : NativeFunctionM) (c : Nat) : NativeFunctionM :=
  { f with cost := c }

/-- `Environment::set_cost_for_function_at_index`: update the cost of the
function registered at `index` if any, and do nothing otherwise. -/
def setCostForFunctionAtIndex (env : EnvM) (index : Nat) (c : Nat) : EnvM :=
  match env.functions.get? index with
  | none => env
  | some f => { env with functions := env.functions.set index (setCost f c) }

/-! ## Boolean equality on values agrees with propositional equality -/

/-- Every value has at least one node. -/
theorem one_le_childSize (a : HVal) : 1 ≤ childSize a := by
  cases a with
  | opt o => cases o <;> simp [childSize]
  | _ => simp [childSize]

/-- A member of a list contributes to the list's node count. -/
theorem childSize_le_sizeL {e : HVal} {es : List HVal} (h : e ∈ es) :
    childSize e ≤ sizeL es := by
  induction es with
  | nil => cases h
  | cons x xs ih =>
      rcases List.mem_cons.mp h with rfl | hx
      · simp [sizeL]
      · have := ih hx
        simp [sizeL]
        omega

/-- A member pair contributes both components to the list's node count. -/
theorem childSize_le_sizeLP {p : HVal × HVal} {ps : List (HVal × HVal)} (h : p ∈ ps) :
    childSize p.1 ≤ sizeLP ps ∧ childSize p.2 ≤ sizeLP ps := by
  induction ps with
  | nil => cases h
  | cons x xs ih =>
      obtain ⟨k, v⟩ := x
      rcases List.mem_cons.mp h with rfl | hx
      · simp [sizeLP]
        omega
      · have := ih hx
        simp [sizeLP]
        omega

/-- `beqL` decides list equality once its elements do. -/
theorem beqL_iff {es : List HVal} (fs : List HVal)
    (ih : ∀ e ∈ es, ∀ b, beqV e b = true ↔ e = b) :
    beqL es fs = true ↔ es = fs := by
  induction es generalizing fs with
  | nil => cases fs <;> simp [beqL]
  | cons e es ihl =>
      cases fs with
      | nil => simp [beqL]
      | cons f fs =>
          have he := ih e (List.mem_cons_self e es) f
          have ht := ihl fs (fun x hx b => ih x (List.mem_cons_of_mem e hx) b)
          simp [beqL, Bool.and_eq_true, he, ht]

/-- `beqLP` decides pair-list equality once the components do. -/
theorem beqLP_iff {ps : List (HVal × HVal)} (qs : List (HVal × HVal))
    (ih : ∀ p ∈ ps, ∀ b, (beqV p.1 b = true ↔ p.1 = b) ∧ (beqV p.2 b = true ↔ p.2 = b)) :
    beqLP ps qs = true ↔ ps = qs := by
  induction ps generalizing qs with
  | nil => cases qs <;> simp [beqLP]
  | cons p ps ihl =>
      obtain ⟨k, v⟩ := p
      cases qs with
      | nil => simp [beqLP]
      | cons q qs =>
          obtain ⟨l, w⟩ := q
          have hk := (ih (k, v) (List.mem_cons_self _ ps) l).1
          have hv := (ih (k, v) (List.mem_cons_self _ ps) w).2
          have ht := ihl qs (fun x hx b => ih x (List.mem_cons_of_mem _ hx) b)
          simp [beqLP, Bool.and_eq_true, hk, hv, ht, Prod.ext_iff]

set_option linter.unnecessarySeqFocus false in
/-- `beqV` is exactly propositional equality on values. -/
theorem beqV_iff (a b : HVal) : beqV a b = true ↔ a = b := by
  have key : ∀ n (a b : HVal), childSize a ≤ n → (beqV a b = true ↔ a = b) := by
    intro n
    induction n with
    | zero =>
        intro a b h
        exact absurd (le_trans (one_le_childSize a) h) (by omega)
    | succ n ih =>
        intro a b h
        cases a with
        | default p => cases b <;> simp [beqV]
        | map ps =>
            cases b <;> simp [beqV]
            case map qs =>
              have hsz : sizeLP ps ≤ n := by
                simp [childSize] at h
                omega
              exact beqLP_iff qs (fun p hp b' =>
                ⟨ih p.1 b' (le_trans (childSize_le_sizeLP hp).1 hsz),
                 ih p.2 b' (le_trans (childSize_le_sizeLP hp).2 hsz)⟩)
        | array es =>
            cases b <;> simp [beqV]
            case array fs =>
              have hsz : sizeL es ≤ n := by
                simp [childSize] at h
                omega
              exact beqL_iff fs (fun e he b' =>
                ih e b' (le_trans (childSize_le_sizeL he) hsz))
        | opt o =>
            cases o with
            | none => cases b <;> simp [beqV] <;> (rename_i o'; cases o' <;> simp [beqV])
            | some v =>
                cases b <;> simp [beqV]
                case opt o' =>
                  cases o' with
                  | none => simp [beqV]
                  | some w =>
                      have : childSize v ≤ n := by
                        simp [childSize] at h
                        omega
                      simp [beqV, ih v w this]
        | strct fs t =>
            cases b <;> simp [beqV]
            case strct gs t' =>
              have hsz : sizeL fs ≤ n := by
                simp [childSize] at h
                omega
              simp [Bool.and_eq_true, beqL_iff gs (fun e he b' =>
                ih e b' (le_trans (childSize_le_sizeL he) hsz))]
        | enm fs t =>
            cases b <;> simp [beqV]
            case enm gs t' =>
              have hsz : sizeL fs ≤ n := by
                simp [childSize] at h
                omega
              simp [Bool.and_eq_true, beqL_iff gs (fun e he b' =>
                ih e b' (le_trans (childSize_le_sizeL he) hsz))]
        | owned v =>
            cases b <;> simp [beqV]
            case owned w =>
              have : childSize v ≤ n := by
                simp [childSize] at h
                omega
              exact ih v w this
        | shared addr => cases b <;> simp [beqV]
  exact key (childSize a) a b le_rfl

/-- `beqV` is reflexive. -/
theorem beqV_self (a : HVal) : beqV a a = true :=
  (beqV_iff a a).mpr rfl

/-- `beqV` is `false` on distinct values. -/
theorem beqV_of_ne {a b : HVal} (h : a ≠ b) : beqV a b = false := by
  rcases hb : beqV a b with _ | _
  · rfl
  · exact absurd ((beqV_iff a b).mp hb) h

/-! ## Claim C1 -/

/-- One drop-loop iteration on the cyclic array is the identity: the
array's child is `shared 0`, the heap still holds one handle to cell 0
(inside cell 0's own content), so `Rc::try_unwrap` fails and the content is
cloned and pushed back — without any `visited` check, the `Array` arm
pushes the child although its address was already seen. -/
theorem dropArm_cyc_fixed :
    dropArm cycHeap [] [] (.array [.shared 0]) =
      { heap := cycHeap, stack := [.array [.shared 0]], visited := [] } := rfl

/-- C1: the claim says every `ValuePointer` drop terminates by pushing a
child iff its cell address is unseen.  The source checks `visited` only in
the `Value::Map` arm; dropping a pointer to a shared cell that contains an
array pointing back to the cell re-clones the content forever: no fuel
bound suffices for the loop to drain its stack. -/
theorem drop_cyclic_array_never_finishes (fuel : Nat) :
    dropPointer cycHeap (.shared 0) fuel = none := by
  have hrun : ∀ n, dropRun n { heap := cycHeap, stack := [.array [.shared 0]], visited := [] }
      = none := by
    intro n
    induction n with
    | zero => rfl
    | succ n ih =>
        show dropRun n (dropArm cycHeap [] [] (.array [.shared 0])) = none
        rw [dropArm_cyc_fixed]
        exact ih
  exact hrun fuel

/-! ## Claim C5 -/

/-- C5 counterexample: the claim says a module with exactly 65535 constants
passes the count checks (`< 65536`); the source rejects at
`len >= u16::MAX = 65535`. -/
theorem verifyCounts_rejects_65535_constants :
    verifyCounts ⟨List.replicate 65535 (.vdefault .pnull), [], [], []⟩ =
      .error .tooManyConstants := by
  show (if (List.replicate 65535 (VType.vdefault .pnull)).length ≥ 65535
      then Except.error VdErr.tooManyConstants else _) = _
  rw [List.length_replicate, if_pos (le_refl 65535)]

/-- C5 amended: the count checks accept a module iff the constant, chunk,
struct and enum counts are each strictly below 65535 and the combined
struct + enum count is also strictly below 65535. -/
theorem verifyCounts_accepts_iff (m : ModuleM) :
    verifyCounts m = .ok () ↔
      m.constants.length < 65535 ∧ m.chunks.length < 65535 ∧
      m.structs.length < 65535 ∧ m.enums.length < 65535 ∧
      m.structs.length + m.enums.length < 65535 := by
  unfold verifyCounts
  split_ifs with h1 h2 h3 h4 h5 <;> simp <;> omega

/-- C5 witness: the empty module passes the count checks. -/
theorem verifyCounts_accepts_iff_witness :
    verifyCounts ⟨[], [], [], []⟩ = .ok () :=
  (verifyCounts_accepts_iff ⟨[], [], [], []⟩).mpr (by decide)

/-! ## Claim C10 -/

/-- C10: `set_cost_for_function_at_index` with no function registered at the
index returns leaving the environment unchanged; with one registered, only
that function's cost field changes, every other function and the structure
and enum registries being untouched. -/
theorem set_cost_for_function_at_index_spec (env : EnvM) (i c : Nat) :
    (env.functions.get? i = none → setCostForFunctionAtIndex env i c = env) ∧
    (∀ f, env.functions.get? i = some f →
      (setCostForFunctionAtIndex env i c).functions.get? i = some (setCost f c) ∧
      (∀ j, j ≠ i →
        (setCostForFunctionAtIndex env i c).functions.get? j = env.functions.get? j) ∧
      (setCostForFunctionAtIndex env i c).structures = env.structures ∧
      (setCostForFunctionAtIndex env i c).enums = env.enums ∧
      (setCost f c).cost = c ∧ (setCost f c).forType = f.forType ∧
      (setCost f c).parameters = f.parameters ∧
      (setCost f c).returnType = f.returnType ∧ (setCost f c).implId = f.implId) := by
  constructor
  · intro h
    unfold setCostForFunctionAtIndex
    rw [h]
  · intro f h
    have hi : i < env.functions.length := by
      by_contra hlt
      rw [List.get?_eq_none.mpr (le_of_not_lt hlt)] at h
      cases h
    refine ⟨?_, ?_, ?_, ?_, rfl, rfl, rfl, rfl, rfl⟩
    · unfold setCostForFunctionAtIndex
      rw [h]
      show (env.functions.set i (setCost f c)).get? i = some (setCost f c)
      rw [List.get?_eq_getElem?, List.getElem?_set_eq_of_lt _ hi]
    · intro j hj
      unfold setCostForFunctionAtIndex
      rw [h]
      show (env.functions.set i (setCost f c)).get? j = env.functions.get? j
      rw [List.get?_eq_getElem?, List.getElem?_set_ne (fun e => hj e.symm),
        List.get?_eq_getElem?]
    · unfold setCostForFunctionAtIndex
      rw [h]
    · unfold setCostForFunctionAtIndex
      rw [h]

/-- C10 witness: a two-function environment, updating index 1 and probing a
missing index 5. -/
theorem set_cost_for_function_at_index_spec_witness :
    (setCostForFunctionAtIndex
        ⟨[⟨none, [], 3, none, 10⟩, ⟨some 1, [2], 4, some 2, 11⟩], [⟨1, 2⟩], []⟩ 5 9 =
      ⟨[⟨none, [], 3, none, 10⟩, ⟨some 1, [2], 4, some 2, 11⟩], [⟨1, 2⟩], []⟩) ∧
    ((setCostForFunctionAtIndex
        ⟨[⟨none, [], 3, none, 10⟩, ⟨some 1, [2], 4, some 2, 11⟩], [⟨1, 2⟩], []⟩ 1 9).functions.get? 1 =
      some (setCost ⟨some 1, [2], 4, some 2, 11⟩ 9)) ∧
    ((setCostForFunctionAtIndex
        ⟨[⟨none, [], 3, none, 10⟩, ⟨some 1, [2], 4, some 2, 11⟩], [⟨1, 2⟩], []⟩ 1 9).functions.get? 0 =
      some ⟨none, [], 3, none, 10⟩) :=
  ⟨(set_cost_for_function_at_index_spec
      ⟨[⟨none, [], 3, none, 10⟩, ⟨some 1, [2], 4, some 2, 11⟩], [⟨1, 2⟩], []⟩ 5 9).1 rfl,
   ((set_cost_for_function_at_index_spec
      ⟨[⟨none, [], 3, none, 10⟩, ⟨some 1, [2], 4, some 2, 11⟩], [⟨1, 2⟩], []⟩ 1 9).2
      ⟨some 1, [2], 4, some 2, 11⟩ rfl).1,
   (((set_cost_for_function_at_index_spec
      ⟨[⟨none, [], 3, none, 10⟩, ⟨some 1, [2], 4, some 2, 11⟩], [⟨1, 2⟩], []⟩ 1 9).2
      ⟨some 1, [2], 4, some 2, 11⟩ rfl).2.1 0 (by decide)).trans rfl⟩

/-! ## Claim C8 -/

/-- C8 counterexample: arity and receiver both match (no parameters, no
receiver), yet with cost 5 against a remaining gas budget of 3 the charge
fails and `increase_gas_usage(..).unwrap()` panics (`none`): the callable is
not invoked, contradicting the claim that a matching call always invokes
it. -/
theorem callFunction_gas_panic_cex :
    callFunction ⟨none, [], 5, none, 0⟩ (fun _ _ => .ok (some (.default .pnull))) none []
      ⟨0, some 3⟩ = none := rfl

/-- C8 amended: a mismatch in parameter count or receiver presence is
rejected with `InvalidFnCall` before the callable runs; on a match the
callable is invoked exactly when the gas charge succeeds, and a failing
charge panics (`unwrap`) instead of returning an error. -/
theorem callFunction_amended (f : NativeFunctionM)
    (onCall : Except EnvErr HVal → List PathM → Except EnvErr (Option HVal))
    (iv : Option HVal) (ps : List PathM) (st : GasState) :
    (ps.length ≠ f.parameters.length ∨ iv.isSome ≠ f.forType.isSome →
      callFunction f onCall iv ps st = some (.error .invalidFnCall, st)) ∧
    (ps.length = f.parameters.length → iv.isSome = f.forType.isSome →
      (∀ st', increaseGasUsage st f.cost = .ok st' →
        callFunction f onCall iv ps st =
          some (onCall
            (match iv with | some v => .ok v | none => .error .fnExpectedInstance) ps, st')) ∧
      (∀ e, increaseGasUsage st f.cost = .error e →
        callFunction f onCall iv ps st = none)) := by
  refine ⟨fun h => ?_, fun h1 h2 => ⟨fun st' hg => ?_, fun e hg => ?_⟩⟩
  · rcases h with h | h <;> simp [callFunction, h]
  · simp [callFunction, h1, h2, hg]
  · simp [callFunction, h1, h2, hg]

/-- C8 witness: a mismatching call is rejected, and a matching call with a
successful charge returns the callable's result with the charged state. -/
theorem callFunction_amended_witness :
    callFunction ⟨none, [], 1, none, 0⟩ (fun _ _ => .ok none) none
      [PathM.powned (.default .pnull)] ⟨0, none⟩ =
      some (.error .invalidFnCall, ⟨0, none⟩) ∧
    callFunction ⟨none, [], 1, none, 0⟩ (fun _ _ => .ok none) none [] ⟨0, none⟩ =
      some (.ok none, ⟨1, none⟩) :=
  ⟨(callFunction_amended ⟨none, [], 1, none, 0⟩ (fun _ _ => .ok none) none
      [PathM.powned (.default .pnull)] ⟨0, none⟩).1 (by simp),
   ((callFunction_amended ⟨none, [], 1, none, 0⟩ (fun _ _ => .ok none) none
      [] ⟨0, none⟩).2 rfl rfl).1 ⟨1, none⟩ rfl⟩

/-! ## Claim C7 -/

/-- C7 counterexample: on a dead weak (`upgrade()` yields nothing on the
empty heap), `into_owned` and `into_pointer` hit `upgrade().unwrap()` and
panic (`none`) — no `WeakValue` error is signalled, contradicting the claim
that every dereferencing path operation signals `WeakValue` on a dead
weak. -/
theorem intoOwned_dead_weak_panics :
    pIntoOwned [] (PathM.pwrapper 0) = none ∧
    pIntoPointer [] (PathM.pwrapper 0) = none ∧
    heapLookup [] 0 = none :=
  ⟨rfl, rfl, rfl⟩

/-- C7 amended: on a `Wrapper` path whose target cell is dead, read-borrow,
write-borrow, `assign` and `get_sub_variable` signal `WeakValue`, while
`into_owned` and `into_pointer` panic (`unwrap` on a failed upgrade); on a
live target no operation signals `WeakValue` or panics. -/
theorem path_weak_ops_amended (heap : Heap) (a : Nat) :
    (heapLookup heap a = none →
      pathAsRef heap (.pwrapper a) = .error .weakValue ∧
      (∀ f, pathAsMut heap (.pwrapper a) f = .error .weakValue) ∧
      (∀ v, pAssign heap (.pwrapper a) v = .error .weakValue) ∧
      (∀ i, pGetSubVariable heap (.pwrapper a) i = .error .weakValue) ∧
      pIntoOwned heap (.pwrapper a) = none ∧
      pIntoPointer heap (.pwrapper a) = none) ∧
    (∀ w, heapLookup heap a = some w →
      pathAsRef heap (.pwrapper a) = .ok w ∧
      (∀ f, pathAsMut heap (.pwrapper a) f = .ok (.pwrapper a, heapUpdate heap a (f w))) ∧
      (∀ v, pAssign heap (.pwrapper a) v = .ok (.pwrapper a, heapUpdate heap a v)) ∧
      (∀ i, pGetSubVariable heap (.pwrapper a) i ≠ .error .weakValue) ∧
      pIntoOwned heap (.pwrapper a) = some w ∧
      pIntoPointer heap (.pwrapper a) = some (.shared a)) := by
  constructor
  · intro h
    refine ⟨?_, fun f => ?_, fun v => ?_, fun i => ?_, ?_, ?_⟩ <;>
      simp [pathAsRef, pathAsMut, pAssign, pGetSubVariable, pIntoOwned, pIntoPointer, h]
  · intro w h
    refine ⟨?_, fun f => ?_, fun v => ?_, fun i => ?_, ?_, ?_⟩ <;>
      simp [pathAsRef, pathAsMut, pAssign, pIntoOwned, pIntoPointer, h]
    simp only [pGetSubVariable, h]
    rcases htv : toSubVec w with e | values
    · have he : e = .subValue := by
        cases w <;> simp [toSubVec] at htv <;> exact htv.symm
      subst he
      simp [htv]
    · rcases hg : values[i]? with _ | child
      · simp [htv, hg]
      · cases child <;> simp [htv, hg]

/-- C7 witness: a one-cell heap; all four error-signalling operations fail
with `WeakValue` on the dead address 9, and the live address 0 upgrades. -/
theorem path_weak_ops_amended_witness :
    pathAsRef [(0, .default .pnull)] (.pwrapper 9) = .error .weakValue ∧
    pAssign [(0, .default .pnull)] (.pwrapper 9) (.default .pnull) = .error .weakValue ∧
    pIntoOwned [(0, .default .pnull)] (.pwrapper 9) = none ∧
    pathAsRef [(0, .default .pnull)] (.pwrapper 0) = .ok (.default .pnull) ∧
    pIntoPointer [(0, .default .pnull)] (.pwrapper 0) = some (.shared 0) :=
  ⟨((path_weak_ops_amended [(0, .default .pnull)] 9).1 rfl).1,
   ((path_weak_ops_amended [(0, .default .pnull)] 9).1 rfl).2.2.1 (.default .pnull),
   ((path_weak_ops_amended [(0, .default .pnull)] 9).1 rfl).2.2.2.2.1,
   ((path_weak_ops_amended [(0, .default .pnull)] 0).2 (.default .pnull) rfl).1,
   ((path_weak_ops_amended [(0, .default .pnull)] 0).2 (.default .pnull) rfl).2.2.2.2.2⟩

/-! ## Claim C9 -/

/-- C9: `get_sub_variable(i)` on a path whose (live) target is an array or
struct with `k` children returns `OutOfBounds(i, k)` whenever `i ≥ k`, and
on a target that is neither an array nor a struct returns the `SubValue`
error rather than panicking (the embedding is a total function: no source
branch can panic on a live target, every exit being a returned `Result`). -/
theorem get_sub_variable_out_of_bounds (heap : Heap) (i : Nat) :
    (∀ es, i ≥ es.length →
      pGetSubVariable heap (.powned (.array es)) i = .error (.outOfBounds i es.length) ∧
      pGetSubVariable heap (.pborrowed (.array es)) i = .error (.outOfBounds i es.length)) ∧
    (∀ fs t, i ≥ fs.length →
      pGetSubVariable heap (.powned (.strct fs t)) i = .error (.outOfBounds i fs.length) ∧
      pGetSubVariable heap (.pborrowed (.strct fs t)) i = .error (.outOfBounds i fs.length)) ∧
    (∀ a es, heapLookup heap a = some (.array es) → i ≥ es.length →
      pGetSubVariable heap (.pwrapper a) i = .error (.outOfBounds i es.length)) ∧
    (∀ a fs t, heapLookup heap a = some (.strct fs t) → i ≥ fs.length →
      pGetSubVariable heap (.pwrapper a) i = .error (.outOfBounds i fs.length)) ∧
    (∀ v, (∀ es, v ≠ .array es) → (∀ fs t, v ≠ .strct fs t) →
      pGetSubVariable heap (.powned v) i = .error .subValue ∧
      pGetSubVariable heap (.pborrowed v) i = .error .subValue) ∧
    (∀ a v, heapLookup heap a = some v → (∀ es, v ≠ .array es) →
      (∀ fs t, v ≠ .strct fs t) →
      pGetSubVariable heap (.pwrapper a) i = .error .subValue) := by
  have hsub : ∀ v : HVal, (∀ es, v ≠ .array es) → (∀ fs t, v ≠ .strct fs t) →
      toSubVec v = .error .subValue := by
    intro v h1 h2
    cases v with
    | array es => exact absurd rfl (h1 es)
    | strct fs t => exact absurd rfl (h2 fs t)
    | _ => rfl
  refine ⟨fun es hlen => ⟨?_, ?_⟩, fun fs t hlen => ⟨?_, ?_⟩,
    fun a es hl hlen => ?_, fun a fs t hl hlen => ?_,
    fun v h1 h2 => ⟨?_, ?_⟩, fun a v hl h1 h2 => ?_⟩
  · simp [pGetSubVariable, toSubVec, hlen]
  · simp [pGetSubVariable, toSubVec, List.getElem?_eq_none hlen]
  · simp [pGetSubVariable, toSubVec, hlen]
  · simp [pGetSubVariable, toSubVec, List.getElem?_eq_none hlen]
  · simp [pGetSubVariable, toSubVec, hl, List.getElem?_eq_none hlen]
  · simp [pGetSubVariable, toSubVec, hl, List.getElem?_eq_none hlen]
  · simp [pGetSubVariable, hsub v h1 h2]
  · simp [pGetSubVariable, hsub v h1 h2]
  · simp [pGetSubVariable, hl, hsub v h1 h2]

/-- C9 witness: a two-element array behind each path shape, probed at
index 5, and a primitive target probed for the `SubValue` error. -/
theorem get_sub_variable_out_of_bounds_witness :
    pGetSubVariable [] (.powned (.array [.default .pnull, .default .pnull])) 5 =
      .error (.outOfBounds 5 2) ∧
    pGetSubVariable [(4, .array [.default .pnull, .default .pnull])] (.pwrapper 4) 5 =
      .error (.outOfBounds 5 2) ∧
    pGetSubVariable [] (.pborrowed (.default (.pint .u8 1))) 0 = .error .subValue :=
  ⟨((get_sub_variable_out_of_bounds [] 5).1 [.default .pnull, .default .pnull]
      (by decide)).1,
   ((get_sub_variable_out_of_bounds [(4, .array [.default .pnull, .default .pnull])] 5).2.2.1
      4 [.default .pnull, .default .pnull] rfl (by decide)),
   ((get_sub_variable_out_of_bounds [] 0).2.2.2.2.1 (.default (.pint .u8 1))
      (fun es h => by cases h) (fun fs t h => by cases h)).2⟩

/-! ## Claim C6 -/

/-- Popping the first `n` cells of the stack into a front-pushed buffer
reverses the pop order, recovering the order in which they were pushed. -/
theorem popFrontLoop_spec (ws : List HVal) : ∀ (rest acc : List HVal),
    popFrontLoop ws.length (ws ++ rest) acc = .ok (ws.reverse ++ acc, rest) := by
  induction ws with
  | nil =>
      intro rest acc
      simp [popFrontLoop]
  | cons w ws ih =>
      intro rest acc
      show popFrontLoop (ws.length + 1) (w :: (ws ++ rest)) acc = _
      simp [popFrontLoop, popStack, ih]

/-- C6: with `n` operands pushed left-to-right (`vs.reverse ++ rest` reads
the stack top-first), `new_array`, `new_struct` and `new_enum` pop them in
reverse order and build a composite whose elements/fields keep the original
push order `vs`. -/
theorem constructors_preserve_source_order :
    (∀ (vs rest : List HVal),
      newArrayOp vs.length (vs.reverse ++ rest) = .ok (.array vs :: rest)) ∧
    (∀ (structs : List SType) (id : Nat) (t : SType) (vs rest : List HVal),
      structs.get? id = some t → t.sfieldsCount = vs.length →
      newStructOp structs id (vs.reverse ++ rest) = .ok (.strct vs t :: rest)) ∧
    (∀ (enums : List EType) (id vid : Nat) (e : EType) (fc : Nat) (vs rest : List HVal),
      enums.get? id = some e → e.variants.get? vid = some fc → fc = vs.length →
      newEnumOp enums id vid (vs.reverse ++ rest) = .ok (.enm vs ⟨e, vid⟩ :: rest)) := by
  have key : ∀ (vs rest : List HVal),
      popFrontLoop vs.length (vs.reverse ++ rest) [] = .ok (vs, rest) := by
    intro vs rest
    have h := popFrontLoop_spec vs.reverse rest []
    simpa using h
  refine ⟨fun vs rest => ?_, fun structs id t vs rest hget hfc => ?_,
    fun enums id vid e fc vs rest hget hvar hfc => ?_⟩
  · simp [newArrayOp, key]
  · rw [List.get?_eq_getElem?] at hget
    simp [newStructOp, hget, hfc, key]
  · rw [List.get?_eq_getElem?] at hget
    rw [List.get?_eq_getElem?] at hvar
    simp [newEnumOp, hget, hvar, hfc, key]

/-- C6 witness: three pushes build the array `[1, 2, 3]` in push order; a
two-field struct and a one-field enum variant keep field order likewise. -/
theorem constructors_preserve_source_order_witness :
    newArrayOp 3
        [.default (.pint .u8 3), .default (.pint .u8 2), .default (.pint .u8 1)] =
      .ok [.array [.default (.pint .u8 1), .default (.pint .u8 2), .default (.pint .u8 3)]] ∧
    newStructOp [⟨0, 2⟩] 0 [.default (.pint .u8 2), .default (.pint .u8 1)] =
      .ok [.strct [.default (.pint .u8 1), .default (.pint .u8 2)] ⟨0, 2⟩] ∧
    newEnumOp [⟨0, [1]⟩] 0 0 [.default .pnull] =
      .ok [.enm [.default .pnull] ⟨⟨0, [1]⟩, 0⟩] :=
  ⟨constructors_preserve_source_order.1
      [.default (.pint .u8 1), .default (.pint .u8 2), .default (.pint .u8 3)] [],
   constructors_preserve_source_order.2.1 [⟨0, 2⟩] 0 ⟨0, 2⟩
      [.default (.pint .u8 1), .default (.pint .u8 2)] [] rfl rfl,
   constructors_preserve_source_order.2.2 [⟨0, [1]⟩] 0 0 ⟨0, [1]⟩ 1
      [.default .pnull] [] rfl rfl rfl⟩

/-! ## Claim C4 -/

/-- C4 counterexample: two pairs with the same key `Null` are emitted, first
with value 1, then with value 2.  The claim says the last-emitted value 2
survives; the source pops the pairs in reverse order, so the last insert is
the first-emitted pair and value 1 survives. -/
theorem newMap_duplicate_key_keeps_first_pair :
    newMapOp 2
        [.default (.pint .u8 2), .default .pnull, .default (.pint .u8 1), .default .pnull] =
      .ok [.map [(.default .pnull, .default (.pint .u8 1))]] ∧
    HVal.default (.pint .u8 1) ≠ HVal.default (.pint .u8 2) := by
  refine ⟨rfl, ?_⟩
  simp

/-- `aLookup` after `aInsert`: the inserted key now maps to the new value,
everything else is unchanged. -/
theorem aLookup_aInsert (m : List (HVal × HVal)) (k0 v k : HVal) :
    aLookup (aInsert m k0 v) k = if beqV k0 k then some v else aLookup m k := by
  induction m with
  | nil => simp [aInsert, aLookup]
  | cons p m ih =>
      obtain ⟨k', v'⟩ := p
      by_cases h0 : k' = k0
      · subst h0
        by_cases hk : k' = k
        · subst hk
          simp [aInsert, aLookup, beqV_self]
        · simp [aInsert, aLookup, beqV_self, beqV_of_ne hk]
      · by_cases hk : k' = k
        · subst hk
          simp [aInsert, aLookup, beqV_self, beqV_of_ne h0,
            beqV_of_ne (fun e => h0 e.symm), ih]
        · simp [aInsert, aLookup, beqV_of_ne h0, beqV_of_ne hk, ih]

/-- `firstKeyVal` scans an append left to right. -/
theorem firstKeyVal_append (xs ys : List (HVal × HVal)) (k : HVal) :
    firstKeyVal (xs ++ ys) k =
      match firstKeyVal xs k with
      | some v => some v
      | none => firstKeyVal ys k := by
  induction xs with
  | nil => simp [firstKeyVal]
  | cons p xs ih =>
      obtain ⟨k', v⟩ := p
      rcases h : beqV k' k with _ | _
      · simp [firstKeyVal, h, ih]
      · simp [firstKeyVal, h]

/-- Folding inserts over a list: the lookup is decided by the last matching
entry of the list (the first of its reverse), else by the accumulator. -/
theorem aLookup_foldl_insert (l : List (HVal × HVal)) :
    ∀ (acc : List (HVal × HVal)) (k : HVal),
    aLookup (l.foldl (fun m p => aInsert m p.1 p.2) acc) k =
      match firstKeyVal l.reverse k with
      | some v => some v
      | none => aLookup acc k := by
  induction l with
  | nil =>
      intro acc k
      simp [firstKeyVal]
  | cons p l ih =>
      obtain ⟨k0, v⟩ := p
      intro acc k
      show aLookup (l.foldl _ (aInsert acc k0 v)) k = _
      rw [ih, List.reverse_cons, firstKeyVal_append]
      cases hf : firstKeyVal l.reverse k with
      | some v' => simp
      | none =>
          rcases hb : beqV k0 k with _ | _ <;>
            simp [firstKeyVal, hb, aLookup_aInsert]

/-- The `new_map` pop loop over the reversed (pop-ordered) pairs: pops
succeed, non-map keys are inserted in sequence. -/
theorem newMapLoop_spec (rps : List (HVal × HVal)) :
    ∀ (rest : List HVal) (acc : List (HVal × HVal)),
    (∀ p ∈ rps, isMapHV (intoValueHV p.1) = false) →
    newMapLoop rps.length (rps.flatMap (fun p => [p.2, p.1]) ++ rest) acc =
      .ok (rps.foldl (fun m p => aInsert m (intoValueHV p.1) p.2) acc, rest) := by
  induction rps with
  | nil => intro rest acc _; rfl
  | cons p rps ih =>
      obtain ⟨k, v⟩ := p
      intro rest acc hgood
      have hk := hgood (k, v) (List.mem_cons_self _ _)
      show newMapLoop (rps.length + 1) (v :: k :: (rps.flatMap _ ++ rest)) acc = _
      simp only [newMapLoop, popStack, hk, Bool.false_eq_true, if_false]
      exact ih rest (aInsert acc (intoValueHV k) v)
        (fun q hq => hgood q (List.mem_cons_of_mem _ hq))

/-- The `new_map` pop loop faults with the invalid-key error as soon as a
popped key is a map. -/
theorem newMapLoop_mapKey_error (rps : List (HVal × HVal)) :
    ∀ (rest : List HVal) (acc : List (HVal × HVal)),
    (∃ p ∈ rps, isMapHV (intoValueHV p.1) = true) →
    newMapLoop rps.length (rps.flatMap (fun p => [p.2, p.1]) ++ rest) acc =
      .error .invalidKeyType := by
  induction rps with
  | nil =>
      intro rest acc h
      obtain ⟨p, hp, _⟩ := h
      cases hp
  | cons p rps ih =>
      obtain ⟨k, v⟩ := p
      intro rest acc h
      show newMapLoop (rps.length + 1) (v :: k :: (rps.flatMap _ ++ rest)) acc = _
      rcases hk : isMapHV (intoValueHV k) with _ | _
      · obtain ⟨q, hq, hbad⟩ := h
        rcases List.mem_cons.mp hq with rfl | hq'
        · rw [hk] at hbad
          cases hbad
        · simp only [newMapLoop, popStack, hk, Bool.false_eq_true, if_false]
          exact ih rest _ ⟨q, hq', hbad⟩
      · simp only [newMapLoop, popStack, hk, if_true]

/-- C4 amended: `new_map` pops `value` then `key` per pair, faults with the
invalid-key error iff some key is a map, and otherwise builds the hash map
by inserting the pairs in pop (reverse-source) order — so for duplicate
keys the pair emitted FIRST in source order provides the surviving value.
Keys are hypothesised not to be `shared` handles (see the section note). -/
theorem newMap_amended (pairs : List (HVal × HVal)) (rest : List HVal)
    (_hdirect : ∀ p ∈ pairs, isSharedHV p.1 = false) :
    ((∀ p ∈ pairs, isMapHV (intoValueHV p.1) = false) →
      newMapOp pairs.length (encodePairs pairs ++ rest) =
        .ok (.map (buildMap pairs) :: rest) ∧
      ∀ k, aLookup (buildMap pairs) k =
        firstKeyVal (pairs.map (fun p => (intoValueHV p.1, p.2))) k) ∧
    ((∃ p ∈ pairs, isMapHV (intoValueHV p.1) = true) →
      newMapOp pairs.length (encodePairs pairs ++ rest) = .error .invalidKeyType) := by
  constructor
  · intro hgood
    constructor
    · have h := newMapLoop_spec pairs.reverse rest []
        (fun p hp => hgood p (List.mem_reverse.mp hp))
      rw [List.length_reverse] at h
      simp only [newMapOp, encodePairs, h]
      simp [buildMap, List.foldl_map, List.foldr_map]
    · intro k
      show aLookup ((pairs.reverse.map _).foldl _ []) k = _
      rw [aLookup_foldl_insert]
      have hrev : (pairs.reverse.map (fun p => (intoValueHV p.1, p.2))).reverse =
          pairs.map (fun p => (intoValueHV p.1, p.2)) := by
        simp
      rw [hrev]
      cases hf : firstKeyVal (pairs.map (fun p => (intoValueHV p.1, p.2))) k <;>
        simp [aLookup]
  · intro h
    obtain ⟨p, hp, hbad⟩ := h
    have herr := newMapLoop_mapKey_error pairs.reverse rest []
      ⟨p, List.mem_reverse.mpr hp, hbad⟩
    rw [List.length_reverse] at herr
    simp [newMapOp, encodePairs, herr]

/-- C4 witness: two distinct keys; the built map answers each key with the
first (here unique) source pair's value. -/
theorem newMap_amended_witness :
    newMapOp 2
        (encodePairs [(.default (.pint .u8 1), .default (.pint .u8 10)),
          (.default (.pint .u8 2), .default (.pint .u8 20))] ++ []) =
      .ok (.map (buildMap [(.default (.pint .u8 1), .default (.pint .u8 10)),
          (.default (.pint .u8 2), .default (.pint .u8 20))]) :: []) ∧
    aLookup (buildMap [(.default (.pint .u8 1), .default (.pint .u8 10)),
          (.default (.pint .u8 2), .default (.pint .u8 20))]) (.default (.pint .u8 1)) =
      firstKeyVal ([(.default (.pint .u8 1), .default (.pint .u8 10)),
          (.default (.pint .u8 2), .default (.pint .u8 20))].map
            (fun p => (intoValueHV p.1, p.2))) (.default (.pint .u8 1)) := by
  have h := (newMap_amended
    [(.default (.pint .u8 1), .default (.pint .u8 10)),
      (.default (.pint .u8 2), .default (.pint .u8 20))] []
    (by simp [isSharedHV])).1 (by simp [isMapHV, intoValueHV])
  exact ⟨h.1, h.2 (.default (.pint .u8 1))⟩

/-! ## Claim C2 -/

/-- Every integer width admits the value 1. -/
theorem one_le_maxOf (ty : ITy) : 1 ≤ ty.maxOf := by
  cases ty <;> norm_num [ITy.maxOf]

/-- C2 counterexample: iterating `Range(1, 3, U32)` with a `PathIterator`
yields no element at all — the internal index starts at `U32(0)` rather
than at the range's start, and the very first `next` falls outside the
range and reports exhaustion — where the claim demands `max(0, 3-1) = 2`
elements. -/
theorem rangeIter_positive_start_yields_nothing :
    iterCollect 10
        (pathIterNew (.default (.prange (.pint .u32 1) (.pint .u32 3) .u32))) = [] ∧
    (iterCollect 10
        (pathIterNew (.default (.prange (.pint .u32 1) (.pint .u32 3) .u32)))).length ≠
      max 0 (3 - 1) := by
  refine ⟨rfl, ?_⟩
  decide

/-- One unfolding of the collection loop. -/
theorem iterCollect_succ (fuel : Nat) (st : IterState) :
    iterCollect (fuel + 1) st =
      match pathIterNext st with
      | .error _ => []
      | .ok (none, _) => []
      | .ok (some v, st') => v :: iterCollect fuel st' := rfl

/-- Iterating an array from index `i` yields the elements from `i` on, in
index order (`n` counts the remaining elements). -/
theorem iterCollect_array_drop (es : List HVal) (hlen : es.length < 2 ^ 32) :
    ∀ n i, i ≤ es.length → es.length - i = n →
    iterCollect (n + 1) ⟨.array es, .pint .u32 i⟩ = es.drop i := by
  have hlen' : es.length < 4294967296 := by norm_num at hlen; exact hlen
  intro n
  induction n with
  | zero =>
      intro i hi hn
      have hie : i = es.length := by omega
      subst hie
      rcases hinc : PrimVal.increment (.pint .u32 es.length) with e | idx
      · simp [iterCollect, pathIterNext, hinc, List.drop_length]
      · simp [iterCollect, pathIterNext, hinc, PrimVal.toU32,
          List.getElem?_eq_none (le_refl es.length), List.drop_length]
  | succ n ihn =>
      intro i hi hn
      have hilt : i < es.length := by omega
      have hmax : ¬ (i + 1 > ITy.maxOf .u32) := by
        simp only [ITy.maxOf]
        omega
      have hnext : pathIterNext ⟨.array es, .pint .u32 i⟩ =
          .ok (some es[i], ⟨.array es, .pint .u32 (i + 1)⟩) := by
        simp [pathIterNext, PrimVal.increment, hmax, PrimVal.toU32,
          List.getElem?_eq_getElem hilt]
      rw [iterCollect_succ, hnext]
      show es[i] :: iterCollect (n + 1) ⟨.array es, .pint .u32 (i + 1)⟩ = es.drop i
      rw [ihn (i + 1) (by omega) (by omega)]
      exact (List.drop_eq_getElem_cons hilt).symm

/-- Iterating `Range(0, b, T)` from index `i ≤ b` yields the integers
`i, …, b-1` of width `T`. -/
theorem iterCollect_range_from (ty : ITy) (b : Nat) (hb : b ≤ ty.maxOf) :
    ∀ n i, i ≤ b → b - i = n →
    iterCollect (n + 1) ⟨.default (.prange (.pint ty 0) (.pint ty b) ty), .pint ty i⟩ =
      (List.range' i (b - i)).map (fun k => .default (.pint ty k)) := by
  intro n
  induction n with
  | zero =>
      intro i hi hn
      have hib : i = b := by omega
      subst hib
      rcases hinc : PrimVal.increment (.pint ty i) with e | idx
      · simp [iterCollect, pathIterNext, hinc, hn]
      · simp [iterCollect, pathIterNext, hinc, PrimVal.pGe, PrimVal.pLt, hn]
  | succ n ihn =>
      intro i hi hn
      have hilt : i < b := by omega
      have hmax : ¬ (i + 1 > ty.maxOf) := by omega
      have hnext : pathIterNext
          ⟨.default (.prange (.pint ty 0) (.pint ty b) ty), .pint ty i⟩ =
          .ok (some (.default (.pint ty i)),
            ⟨.default (.prange (.pint ty 0) (.pint ty b) ty), .pint ty (i + 1)⟩) := by
        simp [pathIterNext, PrimVal.increment, hmax, PrimVal.pGe, PrimVal.pLt, hilt]
      rw [iterCollect_succ, hnext]
      show HVal.default (.pint ty i) :: iterCollect (n + 1)
          ⟨.default (.prange (.pint ty 0) (.pint ty b) ty), .pint ty (i + 1)⟩ = _
      rw [ihn (i + 1) (by omega) (by omega)]
      have hbi : b - i = (b - (i + 1)) + 1 := by omega
      rw [hbi, List.range'_succ]
      simp

/-- Iterating a range whose start is positive yields nothing, whatever the
fuel: the index starts at 0, so the first `next` already reports
exhaustion. -/
theorem iterCollect_range_pos_start (ty : ITy) (a b : Nat) (ha : 0 < a) (fuel : Nat) :
    iterCollect fuel
      (pathIterNew (.default (.prange (.pint ty a) (.pint ty b) ty))) = [] := by
  cases fuel with
  | zero => rfl
  | succ n =>
      have h1 : ¬ (0 + 1 > ty.maxOf) := by
        have := one_le_maxOf ty
        omega
      simp [iterCollect, pathIterNext, pathIterNew, PrimVal.increment, h1,
        PrimVal.pGe, Nat.not_le.mpr ha]

/-- C2 amended: iterating an array of length `n < 2^32` yields exactly its
`n` elements in index order; iterating `Range(a, b, T)` (with `b` inside
`T`'s width) yields the integers `0, …, b-1` when `a = 0`, but yields
nothing when `a > 0`, because the iterator's index starts at 0 rather than
at `a`. -/
theorem pathIterator_yields_amended :
    (∀ es : List HVal, es.length < 2 ^ 32 →
      iterCollect (es.length + 1) (pathIterNew (.array es)) = es) ∧
    (∀ (ty : ITy) (b : Nat), b ≤ ty.maxOf →
      iterCollect (b + 1)
          (pathIterNew (.default (.prange (.pint ty 0) (.pint ty b) ty))) =
        (List.range b).map (fun k => .default (.pint ty k))) ∧
    (∀ (ty : ITy) (a b : Nat), 0 < a → ∀ fuel,
      iterCollect fuel
        (pathIterNew (.default (.prange (.pint ty a) (.pint ty b) ty))) = []) := by
  refine ⟨fun es hlen => ?_, fun ty b hb => ?_, iterCollect_range_pos_start⟩
  · have h := iterCollect_array_drop es hlen es.length 0 (by omega) (by omega)
    simpa using h
  · have h := iterCollect_range_from ty b hb b 0 (by omega) (by omega)
    simpa [List.range_eq_range'] using h

/-- C2 witness: a two-element array yields its elements in order,
`Range(0, 2, U8)` yields `[0, 1]`, and `Range(1, 3, U8)` yields nothing. -/
theorem pathIterator_yields_amended_witness :
    iterCollect 3 (pathIterNew (.array [.default .pnull, .default (.pbool true)])) =
      [.default .pnull, .default (.pbool true)] ∧
    iterCollect 3 (pathIterNew (.default (.prange (.pint .u8 0) (.pint .u8 2) .u8))) =
      [.default (.pint .u8 0), .default (.pint .u8 1)] ∧
    iterCollect 7 (pathIterNew (.default (.prange (.pint .u8 1) (.pint .u8 3) .u8))) =
      [] :=
  ⟨pathIterator_yields_amended.1 [.default .pnull, .default (.pbool true)]
      (by norm_num),
   (pathIterator_yields_amended.2.1 .u8 2 (by norm_num [ITy.maxOf])).trans (by rfl),
   pathIterator_yields_amended.2.2 .u8 1 3 (by norm_num) 7⟩

/-! ## Claim C3 -/

/-- `codeWeightL` distributes over append. -/
theorem codeWeightL_append (l1 l2 : List VType) :
    codeWeightL (l1 ++ l2) = codeWeightL l1 + codeWeightL l2 := by
  induction l1 with
  | nil => simp [codeWeightL]
  | cons v l ih => simp [codeWeightL, ih]; omega

/-- `codeWeightL` ignores order. -/
theorem codeWeightL_reverse (l : List VType) : codeWeightL l.reverse = codeWeightL l := by
  induction l with
  | nil => rfl
  | cons v l ih => simp [List.reverse_cons, codeWeightL_append, codeWeightL, ih]; omega

/-- Flattening map pairs preserves the summed weight. -/
theorem codeWeightL_flatPairs (ps : List (VType × VType)) :
    codeWeightL (ps.flatMap (fun p => [p.1, p.2])) = codeWeightLP ps := by
  induction ps with
  | nil => rfl
  | cons p ps ih =>
      obtain ⟨k, v⟩ := p
      rw [List.flatMap_cons, codeWeightL_append, ih]
      show codeWeight k + (codeWeight v + 0) + codeWeightLP ps = _
      simp [codeWeightLP]

/-- `nodesVL` distributes over append. -/
theorem nodesVL_append (l1 l2 : List VType) :
    nodesVL (l1 ++ l2) = nodesVL l1 + nodesVL l2 := by
  induction l1 with
  | nil => simp [nodesVL]
  | cons v l ih => simp [nodesVL, ih]; omega

/-- `nodesVL` ignores order. -/
theorem nodesVL_reverse (l : List VType) : nodesVL l.reverse = nodesVL l := by
  induction l with
  | nil => rfl
  | cons v l ih => simp [List.reverse_cons, nodesVL_append, nodesVL, ih]; omega

/-- Flattening map pairs preserves the node count. -/
theorem nodesVL_flatPairs (ps : List (VType × VType)) :
    nodesVL (ps.flatMap (fun p => [p.1, p.2])) = nodesVLP ps := by
  induction ps with
  | nil => rfl
  | cons p ps ih =>
      obtain ⟨k, v⟩ := p
      rw [List.flatMap_cons, nodesVL_append, ih]
      show nodesV k + (nodesV v + 0) + nodesVLP ps = _
      simp [nodesVLP]

/-- Every constant weighs at least one byte. -/
theorem one_le_codeWeight (v : VType) : 1 ≤ codeWeight v := by
  cases v with
  | vdefault p => exact Nat.le_add_right 1 _
  | vstruct fs t => show 1 ≤ 1 + 8 + codeWeightL fs; omega
  | varray es => show 1 ≤ 1 + 4 + codeWeightL es; omega
  | vmap ps => show 1 ≤ 1 + 16 + codeWeightLP ps; omega
  | venum fs t => show 1 ≤ 1 + 10 + codeWeightL fs; omega
  | voptional o =>
      cases o with
      | none => exact le_refl 1
      | some w => show 1 ≤ 1 + 1 + codeWeight w; omega

/-- Members of a simple list are simple. -/
theorem simpleVL_mem {l : List VType} (h : simpleVL l = true) {e : VType} (he : e ∈ l) :
    simpleV e = true := by
  induction l with
  | nil => cases he
  | cons v l ih =>
      simp only [simpleVL, Bool.and_eq_true] at h
      rcases List.mem_cons.mp he with rfl | he'
      · exact h.1
      · exact ih h.2 he'

/-- Components of a simple pair list are simple. -/
theorem simpleVLP_mem {l : List (VType × VType)} (h : simpleVLP l = true)
    {p : VType × VType} (hp : p ∈ l) :
    simpleV p.1 = true ∧ simpleV p.2 = true := by
  induction l with
  | nil => cases hp
  | cons q l ih =>
      obtain ⟨k, v⟩ := q
      simp only [simpleVLP, Bool.and_eq_true] at h
      rcases List.mem_cons.mp hp with rfl | hp'
      · exact ⟨h.1.1, h.1.2⟩
      · exact ih h.2 hp'

/-- A bound on every member's depth bounds the list depth. -/
theorem depthVL_le {l : List VType} {k : Nat} (h : ∀ e ∈ l, depthV e ≤ k) :
    depthVL l ≤ k := by
  induction l with
  | nil => simp [depthVL]
  | cons v l ih =>
      simp only [depthVL, max_le_iff]
      exact ⟨h v (List.mem_cons_self _ _), ih fun e he => h e (List.mem_cons_of_mem _ he)⟩

/-- A member's depth is at most the list depth. -/
theorem le_depthVL {l : List VType} {e : VType} (he : e ∈ l) : depthV e ≤ depthVL l := by
  induction l with
  | nil => cases he
  | cons v l ih =>
      simp only [depthVL]
      rcases List.mem_cons.mp he with rfl | he'
      · exact le_max_left _ _
      · exact le_trans (ih he') (le_max_right _ _)

/-- A bound on every component's depth bounds the pair-list depth. -/
theorem depthVLP_le {l : List (VType × VType)} {k : Nat}
    (h : ∀ p ∈ l, depthV p.1 ≤ k ∧ depthV p.2 ≤ k) :
    depthVLP l ≤ k := by
  induction l with
  | nil => simp [depthVLP]
  | cons q l ih =>
      obtain ⟨a, b⟩ := q
      simp only [depthVLP, max_le_iff]
      exact ⟨⟨(h (a, b) (List.mem_cons_self _ _)).1, (h (a, b) (List.mem_cons_self _ _)).2⟩,
        ih fun p hp => h p (List.mem_cons_of_mem _ hp)⟩

/-- A component's depth is at most the pair-list depth. -/
theorem le_depthVLP {l : List (VType × VType)} {p : VType × VType} (hp : p ∈ l) :
    depthV p.1 ≤ depthVLP l ∧ depthV p.2 ≤ depthVLP l := by
  induction l with
  | nil => cases hp
  | cons q l ih =>
      obtain ⟨a, b⟩ := q
      simp only [depthVLP]
      rcases List.mem_cons.mp hp with rfl | hp'
      · constructor
        · exact le_trans (le_max_left _ _) (le_max_left _ _)
        · exact le_trans (le_max_right _ _) (le_max_left _ _)
      · exact ⟨le_trans (ih hp').1 (le_max_right _ _),
          le_trans (ih hp').2 (le_max_right _ _)⟩

/-- A child of a nonempty array node at depth `d` sits at depth `d + 1`
within the same 16-deep budget. -/
theorem depth_child_array {es : List VType} {c : VType} (hc : c ∈ es) {d : Nat}
    (h : d + depthV (.varray es) ≤ 16) : (d + 1) + depthV c ≤ 16 := by
  cases es with
  | nil => cases hc
  | cons x xs =>
      have he : depthV (.varray (x :: xs)) = 1 + depthVL (x :: xs) := rfl
      rw [he] at h
      have := le_depthVL hc
      omega

/-- Both components of a map node's pair sit one level deeper. -/
theorem depth_child_map {ps : List (VType × VType)} {p : VType × VType} (hp : p ∈ ps)
    {d : Nat} (h : d + depthV (.vmap ps) ≤ 16) :
    (d + 1) + depthV p.1 ≤ 16 ∧ (d + 1) + depthV p.2 ≤ 16 := by
  cases ps with
  | nil => cases hp
  | cons x xs =>
      have he : depthV (.vmap (x :: xs)) = 1 + depthVLP (x :: xs) := rfl
      rw [he] at h
      have := le_depthVLP hp
      omega

/-- The payload of a `Some` optional sits one level deeper. -/
theorem depth_child_opt {v : VType} {d : Nat}
    (h : d + depthV (.voptional (some v)) ≤ 16) : (d + 1) + depthV v ≤ 16 := by
  have he : depthV (.voptional (some v)) = 1 + depthV v := rfl
  rw [he] at h
  omega

/-- Completeness of the `verify_value` loop on simple constants: when every
stack entry respects the depth budget and the total weight fits, the loop
returns the accumulated weight. -/
theorem verifyValueLoop_ok (ms es' : List SType) (me ee : List EType) :
    ∀ (fuel : Nat) (stack : List (VType × Nat)) (mem : Nat),
    (∀ e ∈ stack, simpleV e.1 = true) →
    (∀ e ∈ stack, e.2 + depthV e.1 ≤ 16) →
    mem + codeWeightL (stack.map Prod.fst) ≤ 1024 →
    nodesVL (stack.map Prod.fst) + 1 ≤ fuel →
    verifyValueLoop ms es' me ee fuel stack mem =
      some (.ok (mem + codeWeightL (stack.map Prod.fst))) := by
  intro fuel
  induction fuel with
  | zero =>
      intro stack mem _ _ _ hfuel
      omega
  | succ fuel ih =>
      intro stack mem hsimp hdep hmem hfuel
      cases stack with
      | nil => simp [verifyValueLoop, codeWeightL]
      | cons e rest =>
          obtain ⟨v, d⟩ := e
          have hsv := hsimp (v, d) (List.mem_cons_self _ _)
          have hdv := hdep (v, d) (List.mem_cons_self _ _)
          have h16 : ¬ (d > 16) := by omega
          have hw : codeWeightL (((v, d) :: rest).map Prod.fst) =
              codeWeight v + codeWeightL (rest.map Prod.fst) := by
            simp [codeWeightL]
          have hn : nodesVL (((v, d) :: rest).map Prod.fst) =
              nodesV v + nodesVL (rest.map Prod.fst) := by
            simp [nodesVL]
          have hwv := one_le_codeWeight v
          have hmem1 : ¬ (mem + 1 > 1024) := by
            rw [hw] at hmem
            omega
          have step : ∀ (stack' : List (VType × Nat)) (mem' : Nat),
              (∀ e ∈ stack', simpleV e.1 = true) →
              (∀ e ∈ stack', e.2 + depthV e.1 ≤ 16) →
              mem' + codeWeightL (stack'.map Prod.fst) =
                mem + codeWeightL (((v, d) :: rest).map Prod.fst) →
              nodesVL (stack'.map Prod.fst) + 1 ≤ fuel →
              verifyValueLoop ms es' me ee fuel stack' mem' =
                some (.ok (mem + codeWeightL (((v, d) :: rest).map Prod.fst))) := by
            intro stack' mem' h1 h2 h3 h4
            rw [ih stack' mem' h1 h2 (by rw [h3]; exact hmem) h4, h3]
          have hrest_simp : ∀ e ∈ rest, simpleV e.1 = true :=
            fun e he => hsimp e (List.mem_cons_of_mem _ he)
          have hrest_dep : ∀ e ∈ rest, e.2 + depthV e.1 ≤ 16 :=
            fun e he => hdep e (List.mem_cons_of_mem _ he)
          cases v with
          | vstruct fields t => simp [simpleV] at hsv
          | venum fields t => simp [simpleV] at hsv
          | vdefault p =>
              cases p with
              | prange l r ty => simp [simpleV] at hsv
              | pnull =>
                  simp only [verifyValueLoop, if_neg h16, if_neg hmem1]
                  apply step rest (mem + 1 + 1) hrest_simp hrest_dep
                  · rw [hw]
                    show _ = mem + (1 + 1 + codeWeightL (rest.map Prod.fst))
                    omega
                  · rw [hn] at hfuel
                    show nodesVL (rest.map Prod.fst) + 1 ≤ fuel
                    have h1 : nodesV (.vdefault .pnull) = 1 := rfl
                    omega
              | pbool b =>
                  simp only [verifyValueLoop, if_neg h16, if_neg hmem1]
                  apply step rest (mem + 1 + 1) hrest_simp hrest_dep
                  · rw [hw]
                    show _ = mem + (1 + 1 + codeWeightL (rest.map Prod.fst))
                    omega
                  · rw [hn] at hfuel
                    show nodesVL (rest.map Prod.fst) + 1 ≤ fuel
                    have h1 : nodesV (.vdefault (.pbool b)) = 1 := rfl
                    omega
              | pstr s =>
                  simp only [verifyValueLoop, if_neg h16, if_neg hmem1]
                  apply step rest (mem + 1 + s.length) hrest_simp hrest_dep
                  · rw [hw]
                    show _ = mem + (1 + s.length + codeWeightL (rest.map Prod.fst))
                    omega
                  · rw [hn] at hfuel
                    show nodesVL (rest.map Prod.fst) + 1 ≤ fuel
                    have h1 : nodesV (.vdefault (.pstr s)) = 1 := rfl
                    omega
              | pint ity k =>
                  simp only [verifyValueLoop, if_neg h16, if_neg hmem1]
                  apply step rest (mem + 1 + ity.memWeight) hrest_simp hrest_dep
                  · rw [hw]
                    show _ = mem + (1 + ity.memWeight + codeWeightL (rest.map Prod.fst))
                    omega
                  · rw [hn] at hfuel
                    show nodesVL (rest.map Prod.fst) + 1 ≤ fuel
                    have h1 : nodesV (.vdefault (.pint ity k)) = 1 := rfl
                    omega
          | voptional o =>
              cases o with
              | none =>
                  simp only [verifyValueLoop, if_neg h16, if_neg hmem1]
                  apply step rest (mem + 1) hrest_simp hrest_dep
                  · rw [hw]
                    show mem + 1 + codeWeightL (rest.map Prod.fst) =
                      mem + (1 + codeWeightL (rest.map Prod.fst))
                    omega
                  · rw [hn] at hfuel
                    show nodesVL (rest.map Prod.fst) + 1 ≤ fuel
                    have h1 : nodesV (.voptional none) = 1 := rfl
                    omega
              | some w =>
                  simp only [verifyValueLoop, if_neg h16, if_neg hmem1]
                  apply step ((w, d + 1) :: rest) (mem + 1 + 1)
                  · intro e he
                    rcases List.mem_cons.mp he with rfl | he'
                    · have : simpleV (.voptional (some w)) = simpleV w := rfl
                      rw [this] at hsv
                      exact hsv
                    · exact hrest_simp e he'
                  · intro e he
                    rcases List.mem_cons.mp he with rfl | he'
                    · exact depth_child_opt hdv
                    · exact hrest_dep e he'
                  · rw [hw]
                    show mem + 1 + 1 + (codeWeight w + codeWeightL (rest.map Prod.fst)) =
                      mem + (1 + 1 + codeWeight w + codeWeightL (rest.map Prod.fst))
                    omega
                  · rw [hn] at hfuel
                    show nodesV w + nodesVL (rest.map Prod.fst) + 1 ≤ fuel
                    have h1 : nodesV (.voptional (some w)) = 1 + nodesV w := rfl
                    omega
          | varray elements =>
              have hsv' : elements.length ≤ ITy.maxOf .u32 ∧ simpleVL elements = true := by
                have : simpleV (.varray elements) =
                    (decide (elements.length ≤ ITy.maxOf .u32) && simpleVL elements) := rfl
                rw [this, Bool.and_eq_true, decide_eq_true_eq] at hsv
                exact hsv
              simp only [verifyValueLoop, if_neg h16, if_neg hmem1]
              rw [if_neg (show ¬ elements.length > ITy.maxOf .u32 by omega)]
              have hfst : (((elements.map (fun c => (c, d + 1))).reverse ++ rest).map
                  Prod.fst) = elements.reverse ++ rest.map Prod.fst := by
                rw [List.map_append, List.map_reverse, List.map_map]
                rw [show (Prod.fst ∘ fun c : VType => (c, d + 1)) = id from rfl, List.map_id]
              apply step ((elements.map (fun c => (c, d + 1))).reverse ++ rest) (mem + 1 + 4)
              · intro e he
                rcases List.mem_append.mp he with hin | hin
                · rw [List.mem_reverse] at hin
                  obtain ⟨c, hc, rfl⟩ := List.mem_map.mp hin
                  exact simpleVL_mem hsv'.2 hc
                · exact hrest_simp e hin
              · intro e he
                rcases List.mem_append.mp he with hin | hin
                · rw [List.mem_reverse] at hin
                  obtain ⟨c, hc, rfl⟩ := List.mem_map.mp hin
                  exact depth_child_array hc hdv
                · exact hrest_dep e hin
              · rw [hw, hfst, codeWeightL_append, codeWeightL_reverse]
                show mem + 1 + 4 + (codeWeightL elements + codeWeightL (rest.map Prod.fst)) =
                  mem + (1 + 4 + codeWeightL elements + codeWeightL (rest.map Prod.fst))
                omega
              · rw [hn] at hfuel
                rw [hfst, nodesVL_append, nodesVL_reverse]
                have h1 : nodesV (.varray elements) = 1 + nodesVL elements := rfl
                omega
          | vmap pairs =>
              have hsv' : pairs.length ≤ ITy.maxOf .u32 ∧ simpleVLP pairs = true := by
                have : simpleV (.vmap pairs) =
                    (decide (pairs.length ≤ ITy.maxOf .u32) && simpleVLP pairs) := rfl
                rw [this, Bool.and_eq_true, decide_eq_true_eq] at hsv
                exact hsv
              simp only [verifyValueLoop, if_neg h16, if_neg hmem1]
              rw [if_neg (show ¬ pairs.length > ITy.maxOf .u32 by omega)]
              have hfst : (((pairs.flatMap
                    (fun p => [(p.1, d + 1), (p.2, d + 1)])).reverse ++ rest).map
                  Prod.fst) =
                  (pairs.flatMap (fun p => [p.1, p.2])).reverse ++ rest.map Prod.fst := by
                rw [List.map_append, List.map_reverse, List.map_flatMap]
                rw [show (fun p : VType × VType =>
                  ([(p.1, d + 1), (p.2, d + 1)].map Prod.fst)) = (fun p => [p.1, p.2]) from rfl]
              apply step ((pairs.flatMap
                  (fun p => [(p.1, d + 1), (p.2, d + 1)])).reverse ++ rest) (mem + 1 + 16)
              · intro e he
                rcases List.mem_append.mp he with hin | hin
                · rw [List.mem_reverse] at hin
                  obtain ⟨p, hp, hpe⟩ := List.mem_flatMap.mp hin
                  have := simpleVLP_mem hsv'.2 hp
                  rcases List.mem_cons.mp hpe with rfl | hpe'
                  · exact this.1
                  · rcases List.mem_cons.mp hpe' with rfl | h'
                    · exact this.2
                    · cases h'
                · exact hrest_simp e hin
              · intro e he
                rcases List.mem_append.mp he with hin | hin
                · rw [List.mem_reverse] at hin
                  obtain ⟨p, hp, hpe⟩ := List.mem_flatMap.mp hin
                  have := depth_child_map hp hdv
                  rcases List.mem_cons.mp hpe with rfl | hpe'
                  · exact this.1
                  · rcases List.mem_cons.mp hpe' with rfl | h'
                    · exact this.2
                    · cases h'
                · exact hrest_dep e hin
              · rw [hw, hfst, codeWeightL_append, codeWeightL_reverse, codeWeightL_flatPairs]
                show mem + 1 + 16 + (codeWeightLP pairs + codeWeightL (rest.map Prod.fst)) =
                  mem + (1 + 16 + codeWeightLP pairs + codeWeightL (rest.map Prod.fst))
                omega
              · rw [hn] at hfuel
                rw [hfst, nodesVL_append, nodesVL_reverse, nodesVL_flatPairs]
                have h1 : nodesV (.vmap pairs) = 1 + nodesVLP pairs := rfl
                omega

/-- Depth bounds on all children give the bound on an array parent. -/
theorem depth_parent_array {cs : List VType} {d : Nat}
    (hch : ∀ c ∈ cs, (d + 1) + depthV c ≤ 16) (hd : d ≤ 16) :
    d + depthV (.varray cs) ≤ 16 := by
  cases cs with
  | nil =>
      have he : depthV (.varray ([] : List VType)) = 0 := rfl
      omega
  | cons x xs =>
      have hx := hch x (List.mem_cons_self _ _)
      have hdl : depthVL (x :: xs) ≤ 15 - d :=
        depthVL_le (fun c hc => by have := hch c hc; omega)
      have he : depthV (.varray (x :: xs)) = 1 + depthVL (x :: xs) := rfl
      omega

/-- Depth bounds on all pair components give the bound on a map parent. -/
theorem depth_parent_map {ps : List (VType × VType)} {d : Nat}
    (hch : ∀ p ∈ ps, (d + 1) + depthV p.1 ≤ 16 ∧ (d + 1) + depthV p.2 ≤ 16)
    (hd : d ≤ 16) :
    d + depthV (.vmap ps) ≤ 16 := by
  cases ps with
  | nil =>
      have he : depthV (.vmap ([] : List (VType × VType))) = 0 := rfl
      omega
  | cons x xs =>
      have hx := (hch x (List.mem_cons_self _ _)).1
      have hdl : depthVLP (x :: xs) ≤ 15 - d :=
        depthVLP_le (fun p hp => by have := hch p hp; omega)
      have he : depthV (.vmap (x :: xs)) = 1 + depthVLP (x :: xs) := rfl
      omega

/-- Soundness of the `verify_value` loop on simple constants: a successful
run returns exactly the accumulated weight and certifies every entry's
depth budget. -/
theorem verifyValueLoop_ok_inv (ms es' : List SType) (me ee : List EType) :
    ∀ (fuel : Nat) (stack : List (VType × Nat)) (mem r : Nat),
    (∀ e ∈ stack, simpleV e.1 = true) →
    verifyValueLoop ms es' me ee fuel stack mem = some (.ok r) →
    r = mem + codeWeightL (stack.map Prod.fst) ∧
      (∀ e ∈ stack, e.2 + depthV e.1 ≤ 16) := by
  intro fuel
  induction fuel with
  | zero =>
      intro stack mem r _ h
      simp [verifyValueLoop] at h
  | succ fuel ih =>
      intro stack mem r hsimp h
      cases stack with
      | nil =>
          simp only [verifyValueLoop, Option.some.injEq, Except.ok.injEq] at h
          subst h
          refine ⟨by simp [codeWeightL], by simp⟩
      | cons e rest =>
          obtain ⟨v, d⟩ := e
          have hsv := hsimp (v, d) (List.mem_cons_self _ _)
          have hrest_simp : ∀ e ∈ rest, simpleV e.1 = true :=
            fun e he => hsimp e (List.mem_cons_of_mem _ he)
          by_cases h16 : d > 16
          · simp only [verifyValueLoop, if_pos h16] at h
            simp at h
          by_cases hmem1 : mem + 1 > 1024
          · simp only [verifyValueLoop, if_neg h16, if_pos hmem1] at h
            simp at h
          have hw : codeWeightL (((v, d) :: rest).map Prod.fst) =
              codeWeight v + codeWeightL (rest.map Prod.fst) := by
            simp [codeWeightL]
          cases v with
          | vstruct fields t => simp [simpleV] at hsv
          | venum fields t => simp [simpleV] at hsv
          | vdefault p =>
              cases p with
              | prange l r' ty => simp [simpleV] at hsv
              | pnull =>
                  simp only [verifyValueLoop, if_neg h16, if_neg hmem1] at h
                  obtain ⟨hr, hdep⟩ := ih rest (mem + 1 + 1) r hrest_simp h
                  refine ⟨by rw [hw]; show r = mem + (1 + 1 + _); omega, ?_⟩
                  intro e he
                  rcases List.mem_cons.mp he with rfl | he'
                  · show d + depthV (.vdefault .pnull) ≤ 16
                    have : depthV (.vdefault .pnull) = 0 := rfl
                    omega
                  · exact hdep e he'
              | pbool b =>
                  simp only [verifyValueLoop, if_neg h16, if_neg hmem1] at h
                  obtain ⟨hr, hdep⟩ := ih rest (mem + 1 + 1) r hrest_simp h
                  refine ⟨by rw [hw]; show r = mem + (1 + 1 + _); omega, ?_⟩
                  intro e he
                  rcases List.mem_cons.mp he with rfl | he'
                  · show d + depthV (.vdefault (.pbool b)) ≤ 16
                    have : depthV (.vdefault (.pbool b)) = 0 := rfl
                    omega
                  · exact hdep e he'
              | pstr s =>
                  simp only [verifyValueLoop, if_neg h16, if_neg hmem1] at h
                  obtain ⟨hr, hdep⟩ := ih rest (mem + 1 + s.length) r hrest_simp h
                  refine ⟨by rw [hw]; show r = mem + (1 + s.length + _); omega, ?_⟩
                  intro e he
                  rcases List.mem_cons.mp he with rfl | he'
                  · show d + depthV (.vdefault (.pstr s)) ≤ 16
                    have : depthV (.vdefault (.pstr s)) = 0 := rfl
                    omega
                  · exact hdep e he'
              | pint ity k =>
                  simp only [verifyValueLoop, if_neg h16, if_neg hmem1] at h
                  obtain ⟨hr, hdep⟩ := ih rest (mem + 1 + ity.memWeight) r hrest_simp h
                  refine ⟨by rw [hw]; show r = mem + (1 + ity.memWeight + _); omega, ?_⟩
                  intro e he
                  rcases List.mem_cons.mp he with rfl | he'
                  · show d + depthV (.vdefault (.pint ity k)) ≤ 16
                    have : depthV (.vdefault (.pint ity k)) = 0 := rfl
                    omega
                  · exact hdep e he'
          | voptional o =>
              cases o with
              | none =>
                  simp only [verifyValueLoop, if_neg h16, if_neg hmem1] at h
                  obtain ⟨hr, hdep⟩ := ih rest (mem + 1) r hrest_simp h
                  refine ⟨by rw [hw]; show r = mem + (1 + _); omega, ?_⟩
                  intro e he
                  rcases List.mem_cons.mp he with rfl | he'
                  · show d + depthV (.voptional none) ≤ 16
                    have : depthV (.voptional none) = 0 := rfl
                    omega
                  · exact hdep e he'
              | some w =>
                  simp only [verifyValueLoop, if_neg h16, if_neg hmem1] at h
                  have hws : simpleV w = true := by
                    have : simpleV (.voptional (some w)) = simpleV w := rfl
                    rw [this] at hsv
                    exact hsv
                  obtain ⟨hr, hdep⟩ := ih ((w, d + 1) :: rest) (mem + 1 + 1) r
                    (by
                      intro e he
                      rcases List.mem_cons.mp he with rfl | he'
                      · exact hws
                      · exact hrest_simp e he') h
                  refine ⟨?_, ?_⟩
                  · rw [hw]
                    have : codeWeightL (((w, d + 1) :: rest).map Prod.fst) =
                        codeWeight w + codeWeightL (rest.map Prod.fst) := by
                      simp [codeWeightL]
                    rw [this] at hr
                    show r = mem + (1 + 1 + codeWeight w + _)
                    omega
                  · intro e he
                    rcases List.mem_cons.mp he with rfl | he'
                    · have hwd := hdep (w, d + 1) (List.mem_cons_self _ _)
                      show d + depthV (.voptional (some w)) ≤ 16
                      have : depthV (.voptional (some w)) = 1 + depthV w := rfl
                      simp only at hwd
                      omega
                    · exact hdep e (List.mem_cons_of_mem _ he')
          | varray elements =>
              have hsv' : elements.length ≤ ITy.maxOf .u32 ∧ simpleVL elements = true := by
                have : simpleV (.varray elements) =
                    (decide (elements.length ≤ ITy.maxOf .u32) && simpleVL elements) := rfl
                rw [this, Bool.and_eq_true, decide_eq_true_eq] at hsv
                exact hsv
              simp only [verifyValueLoop, if_neg h16, if_neg hmem1,
                if_neg (show ¬ elements.length > ITy.maxOf .u32 by omega)] at h
              have hfst : (((elements.map (fun c => (c, d + 1))).reverse ++ rest).map
                  Prod.fst) = elements.reverse ++ rest.map Prod.fst := by
                rw [List.map_append, List.map_reverse, List.map_map]
                rw [show (Prod.fst ∘ fun c : VType => (c, d + 1)) = id from rfl, List.map_id]
              obtain ⟨hr, hdep⟩ := ih ((elements.map (fun c => (c, d + 1))).reverse ++ rest)
                (mem + 1 + 4) r
                (by
                  intro e he
                  rcases List.mem_append.mp he with hin | hin
                  · rw [List.mem_reverse] at hin
                    obtain ⟨c, hc, rfl⟩ := List.mem_map.mp hin
                    exact simpleVL_mem hsv'.2 hc
                  · exact hrest_simp e hin) h
              refine ⟨?_, ?_⟩
              · rw [hw]
                rw [hfst, codeWeightL_append, codeWeightL_reverse] at hr
                show r = mem + (1 + 4 + codeWeightL elements + _)
                omega
              · intro e he
                rcases List.mem_cons.mp he with rfl | he'
                · show d + depthV (.varray elements) ≤ 16
                  refine depth_parent_array ?_ (by omega)
                  intro c hc
                  have := hdep (c, d + 1)
                    (List.mem_append_left _ (List.mem_reverse.mpr
                      (List.mem_map_of_mem _ hc)))
                  simpa using this
                · exact hdep e (List.mem_append_right _ he')
          | vmap pairs =>
              have hsv' : pairs.length ≤ ITy.maxOf .u32 ∧ simpleVLP pairs = true := by
                have : simpleV (.vmap pairs) =
                    (decide (pairs.length ≤ ITy.maxOf .u32) && simpleVLP pairs) := rfl
                rw [this, Bool.and_eq_true, decide_eq_true_eq] at hsv
                exact hsv
              simp only [verifyValueLoop, if_neg h16, if_neg hmem1,
                if_neg (show ¬ pairs.length > ITy.maxOf .u32 by omega)] at h
              have hfst : (((pairs.flatMap
                    (fun p => [(p.1, d + 1), (p.2, d + 1)])).reverse ++ rest).map
                  Prod.fst) =
                  (pairs.flatMap (fun p => [p.1, p.2])).reverse ++ rest.map Prod.fst := by
                rw [List.map_append, List.map_reverse, List.map_flatMap]
                rw [show (fun p : VType × VType =>
                  ([(p.1, d + 1), (p.2, d + 1)].map Prod.fst)) = (fun p => [p.1, p.2]) from rfl]
              obtain ⟨hr, hdep⟩ := ih ((pairs.flatMap
                  (fun p => [(p.1, d + 1), (p.2, d + 1)])).reverse ++ rest) (mem + 1 + 16) r
                (by
                  intro e he
                  rcases List.mem_append.mp he with hin | hin
                  · rw [List.mem_reverse] at hin
                    obtain ⟨p, hp, hpe⟩ := List.mem_flatMap.mp hin
                    have := simpleVLP_mem hsv'.2 hp
                    rcases List.mem_cons.mp hpe with rfl | hpe'
                    · exact this.1
                    · rcases List.mem_cons.mp hpe' with rfl | h'
                      · exact this.2
                      · cases h'
                  · exact hrest_simp e hin) h
              refine ⟨?_, ?_⟩
              · rw [hw]
                rw [hfst, codeWeightL_append, codeWeightL_reverse,
                  codeWeightL_flatPairs] at hr
                show r = mem + (1 + 16 + codeWeightLP pairs + _)
                omega
              · intro e he
                rcases List.mem_cons.mp he with rfl | he'
                · show d + depthV (.vmap pairs) ≤ 16
                  refine depth_parent_map ?_ (by omega)
                  intro p hp
                  have hmem1' : (p.1, d + 1) ∈ (pairs.flatMap
                      (fun p => [(p.1, d + 1), (p.2, d + 1)])).reverse ++ rest :=
                    List.mem_append_left _ (List.mem_reverse.mpr
                      (List.mem_flatMap.mpr ⟨p, hp, List.mem_cons_self _ _⟩))
                  have hmem2' : (p.2, d + 1) ∈ (pairs.flatMap
                      (fun p => [(p.1, d + 1), (p.2, d + 1)])).reverse ++ rest :=
                    List.mem_append_left _ (List.mem_reverse.mpr
                      (List.mem_flatMap.mpr ⟨p, hp,
                        List.mem_cons_of_mem _ (List.mem_cons_self _ _)⟩))
                  exact ⟨by simpa using hdep _ hmem1', by simpa using hdep _ hmem2'⟩
                · exact hdep e (List.mem_append_right _ he')

set_option maxRecDepth 8192 in
/-- C3 counterexample: a constant string of 1024 bytes has nesting depth 0
and the claim's memory weight exactly 1024, so the claim says the validator
accepts it; the source also charges one byte per node for the value's type
tag, reaching 1025, and the module is rejected — moreover with
`TooManyConstants` (the overshoot is only caught by `verify_constants`'s
final total, `verify_value`'s own check having already passed), not with
`TooMuchMemoryUsage` as the claim states. -/
theorem validator_rejects_claim_weight_1024_string :
    claimWeight (.vdefault (.pstr (String.mk (List.replicate 1024 'a')))) = 1024 ∧
    depthV (.vdefault (.pstr (String.mk (List.replicate 1024 'a')))) = 0 ∧
    verifyConstants [] [] [] []
        [.vdefault (.pstr (String.mk (List.replicate 1024 'a')))] =
      some (.error .tooManyConstants) := by
  refine ⟨?_, rfl, ?_⟩
  · show (String.mk (List.replicate 1024 'a')).length = 1024
    show (List.replicate 1024 'a').length = 1024
    simp
  · rfl

/-- C3 amended: for a constant built from non-range primitives, arrays,
maps and optionals (array/map lengths within the `u32` bound), the
validator pipeline (`verify_value` within `verify_constants`) accepts a
single-constant module iff the nesting depth is at most 16 and the
accumulated weight — the claim's per-node weights PLUS one byte per node
for the type tag — is at most 1024. -/
theorem verify_constants_accepts_iff_amended (ms es' : List SType) (me ee : List EType)
    (c : VType) (hs : simpleV c = true) :
    verifyConstants ms es' me ee [c] = some (.ok ()) ↔
      depthV c ≤ 16 ∧ codeWeight c ≤ 1024 := by
  have hnodes : nodesVL ([(c, 0)].map Prod.fst) = nodesV c := by simp [nodesVL]
  have hweight : codeWeightL ([(c, 0)].map Prod.fst) = codeWeight c := by simp [codeWeightL]
  constructor
  · intro h
    have h' : verifyConstantsLoop ms es' me ee [c] 0 = some (.ok ()) := h
    rcases hv : verifyValueO ms es' me ee c with _ | r
    · simp only [verifyConstantsLoop, hv] at h'
      cases h'
    · cases r with
      | error e =>
          simp only [verifyConstantsLoop, hv] at h'
          simp at h'
      | ok m =>
          simp only [verifyConstantsLoop, hv] at h'
          by_cases hm : 0 + m > 1024
          · rw [if_pos hm] at h'
            simp at h'
          · obtain ⟨hr, hdep⟩ := verifyValueLoop_ok_inv ms es' me ee (nodesV c + 1)
              [(c, 0)] 0 m
              (by
                intro e he
                rcases List.mem_cons.mp he with rfl | h0
                · exact hs
                · cases h0) hv
            constructor
            · have := hdep (c, 0) (List.mem_cons_self _ _)
              simpa using this
            · rw [hweight] at hr
              omega
  · rintro ⟨hd, hwt⟩
    have hA := verifyValueLoop_ok ms es' me ee (nodesV c + 1) [(c, 0)] 0
      (by
        intro e he
        rcases List.mem_cons.mp he with rfl | h0
        · exact hs
        · cases h0)
      (by
        intro e he
        rcases List.mem_cons.mp he with rfl | h0
        · simpa using hd
        · cases h0)
      (by rw [hweight]; omega)
      (by rw [hnodes])
    show verifyConstantsLoop ms es' me ee [c] 0 = some (.ok ())
    have hv : verifyValueO ms es' me ee c =
        some (.ok (0 + codeWeightL ([(c, 0)].map Prod.fst))) := hA
    simp only [verifyConstantsLoop, hv]
    rw [if_neg (show ¬ (0 + (0 + codeWeightL ([(c, 0)].map Prod.fst)) > 1024) by
      rw [hweight]; omega)]

/-- C3 witness: a small array constant (weight 11, depth 2) is accepted. -/
theorem verify_constants_accepts_iff_amended_witness :
    verifyConstants [] [] [] []
      [.varray [.vdefault .pnull, .voptional (some (.vdefault (.pint .u8 7)))]] =
        some (.ok ()) :=
  (verify_constants_accepts_iff_amended [] [] [] []
    (.varray [.vdefault .pnull, .voptional (some (.vdefault (.pint .u8 7)))])
    (by decide)).mpr ⟨by decide, by decide⟩

end Xelis
